import Mathlib

/-!
# Verification of the TERMINAL_DMRC route-search core (`find_route.py`)

Shallow embedding of the graph search engine: the weighted-graph model, the
two shortest-path algorithms (`dijkstra`, `a_star`), the geodesic `haversine`
distance, the `heuristic` lookup, and `format_path` reconstruction, together
with proofs about them.

Modelling conventions:
* Python floats are modelled by an arbitrary `LinearOrderedField` (with `ℝ`
  used where the trigonometric `haversine` is involved, and `ℚ` available for
  executable witnesses); `float('inf')` is the `⊤` of `WithTop α`.
* A Python dict used as a graph is a pair of its key set and its lookup
  function; a dict used with `.get`-style defaulted lookups
  (`min_distances`, `g_scores`) is a total function `σ → WithTop α`
  (initialising every key to `inf` and defaulting absent keys to `inf` are
  indistinguishable, so the function with default `⊤` is exact).
* `heapq` pops the least tuple in lexicographic order.  Two live queue
  entries can never agree on both the numeric key(s) and the station (each
  later push to the same station carries a strictly smaller distance), so
  the pop order is already determined by the `(cost, station)`
  (resp. `(f, g, station)`) prefix of the tuple; `popMin` selects the least
  entry under exactly that lexicographic key.
* The `while queue:` loops are given explicit fuel `fuelBound`; the potential
  `phi` strictly decreases at every iteration, and `fuelBound` bounds the
  initial potential, so the out-of-fuel branch is unreachable for every
  input (each station is expanded at most once, so at most one push per edge
  ever happens).
-/

set_option linter.unusedVariables false
set_option linter.unusedSectionVars false
set_option linter.unnecessarySeqFocus false

namespace DMRC

/-! ## Data model -/

/-- One outgoing edge record `{'to': …, 'distance': …, 'line': …}` (the
`'to'` key is called `dest` here because `to` is a Lean keyword). -/
structure Edge (σ L α : Type) where
  dest : σ
  distance : α
  line : L

/-- The adjacency dict `edges`: key set plus lookup. Stations that are not
keys have no outgoing edges and fail the `in graph` test. -/
structure Graph (σ L α : Type) where
  keys : Finset σ
  adj : σ → List (Edge σ L α)

/-- Costs with the `float('inf')` sentinel. -/
abbrev Cost (α : Type) := WithTop α

variable {σ L α : Type}

/-- Station coordinates `{'lat': …, 'lon': …}`. -/
structure Coords where
  lat : ℝ
  lon : ℝ

/-- Dict update `d[x] = v` on a defaulted cost table. -/
def update [DecidableEq σ] (t : σ → Cost α) (x : σ) (v : α) : σ → Cost α :=
  fun y => if y = x then (v : Cost α) else t y

/-- All edge weights of the graph are non-negative (the data-model invariant
on `Edge.distance`). -/
def NonnegWeights [LinearOrderedField α] (g : Graph σ L α) : Prop :=
  ∀ u ∈ g.keys, ∀ e ∈ g.adj u, (0 : α) ≤ e.distance

instance [LinearOrderedField α] [DecidableEq σ] (g : Graph σ L α) :
    Decidable (NonnegWeights g) :=
  Finset.decidableDforallFinset

/-! ## Paths in the graph

`Walk g u v c`: some chain of edges of `g` leads from `u` to `v` with total
weight `c`.  `IsWalk g s p v c` additionally records the `(station, line)`
bookkeeping list exactly as the queue entries of the Python code carry it:
one pair per traversed edge, tagged with the *source* station of the edge.
`WalkV g V u v c` is a walk all of whose stations strictly before the final
one lie in `V`. -/

inductive Walk [LinearOrderedField α] (g : Graph σ L α) : σ → σ → α → Prop
  | nil (v : σ) : Walk g v v 0
  | cons {u v : σ} {c : α} (e : Edge σ L α) (hu : u ∈ g.keys) (he : e ∈ g.adj u)
      (w : Walk g e.dest v c) : Walk g u v (e.distance + c)

inductive IsWalk [LinearOrderedField α] (g : Graph σ L α) (s : σ) :
    List (σ × L) → σ → α → Prop
  | nil : IsWalk g s [] s 0
  | snoc {p : List (σ × L)} {u : σ} {c : α} (e : Edge σ L α)
      (w : IsWalk g s p u c) (hu : u ∈ g.keys) (he : e ∈ g.adj u) :
      IsWalk g s (p ++ [(u, e.line)]) e.dest (c + e.distance)

inductive WalkV [LinearOrderedField α] (g : Graph σ L α) (V : Finset σ) : σ → σ → α → Prop
  | nil (v : σ) : WalkV g V v v 0
  | cons {u v : σ} {c : α} (e : Edge σ L α) (hv : u ∈ V) (hu : u ∈ g.keys)
      (he : e ∈ g.adj u) (w : WalkV g V e.dest v c) : WalkV g V u v (e.distance + c)

/-! ## The priority queue

`heapq` on distinct tuples pops the unique least element; `popMin key b l`
returns the least entry of `b :: l` under the lexicographic `key` together
with the remaining entries. -/

def popMin {ε κ : Type} [LinearOrder κ] (key : ε → κ) : ε → List ε → ε × List ε
  | b, [] => (b, [])
  | b, x :: xs =>
    if key x < key b then
      let r := popMin key x xs
      (r.1, b :: r.2)
    else
      let r := popMin key b xs
      (r.1, x :: r.2)

/-- A `dijkstra` queue entry `(current_dist, current_node, path)`. -/
structure DEntry (σ L α : Type) where
  dist : α
  node : σ
  path : List (σ × L)

/-- An `a_star` queue entry `(f_score, g_score, current_node, path)`. -/
structure AEntry (σ L α : Type) where
  fScore : α
  gScore : α
  node : σ
  path : List (σ × L)

/-- Heap order of `dijkstra` entries (see the header note: the stored path
never takes part in a comparison between live entries). -/
def dKey [LinearOrder σ] [LinearOrderedField α] (en : DEntry σ L α) : α ×ₗ σ :=
  toLex (en.dist, en.node)

/-- Heap order of `a_star` entries. -/
def aKey [LinearOrder σ] [LinearOrderedField α] (en : AEntry σ L α) : α ×ₗ α ×ₗ σ :=
  toLex (en.fScore, toLex (en.gScore, en.node))

/-! ## Dijkstra (`find_route.py`, lines 42–73) -/

/-- The edge relaxation loop `for edge in graph[current_node]: …` of
`dijkstra`: push an entry and update `min_distances` eagerly whenever the
tentative distance strictly improves the best known cost. -/
def relaxD [LinearOrder σ] [LinearOrderedField α] (cur : σ) (curDist : α)
    (path : List (σ × L)) :
    List (Edge σ L α) → List (DEntry σ L α) → (σ → Cost α) →
      List (DEntry σ L α) × (σ → Cost α)
  | [], q, t => (q, t)
  | e :: es, q, t =>
    if (curDist + e.distance : α) < t e.dest then
      relaxD cur curDist path es
        (⟨curDist + e.distance, e.dest, path ++ [(cur, e.line)]⟩ :: q)
        (update t e.dest (curDist + e.distance))
    else
      relaxD cur curDist path es q t

/-- The `while queue:` loop of `dijkstra`.  Returns the Python triple
`(cost, path, nodes_visited_count)` plus the final `visited` set (internal
state, exposed for the node-expansion theorems). -/
def dijkstraLoop [LinearOrder σ] [LinearOrderedField α] (g : Graph σ L α) (endNode : σ) :
    ℕ → List (DEntry σ L α) → Finset σ → (σ → Cost α) → ℕ →
      (Cost α × List (σ × Option L) × ℕ) × Finset σ
  | _, [], visited, _, n => ((⊤, [], n), visited)
  | 0, _ :: _, visited, _, n => ((⊤, [], n), visited)
  | fuel + 1, b :: bs, visited, t, n =>
    let pr := popMin dKey b bs
    let cur := pr.1
    if cur.node = endNode then
      ((↑cur.dist, cur.path.map (fun sl => (sl.1, some sl.2)) ++ [(cur.node, none)], n + 1),
        visited)
    else if cur.node ∈ visited then
      dijkstraLoop g endNode fuel pr.2 visited t (n + 1)
    else if cur.node ∈ g.keys then
      let rt := relaxD cur.node cur.dist cur.path (g.adj cur.node) pr.2 t
      dijkstraLoop g endNode fuel rt.1 (insert cur.node visited) rt.2 (n + 1)
    else
      dijkstraLoop g endNode fuel pr.2 (insert cur.node visited) t (n + 1)

/-- One more than the total number of edge records: an upper bound for the
number of loop iterations of either search (each station is expanded at most
once, so at most one push per edge record happens, plus the initial entry). -/
def fuelBound [LinearOrderedField α] (g : Graph σ L α) : ℕ :=
  1 + Finset.sum g.keys (fun v => (g.adj v).length)

/-- `dijkstra(graph, start_node, end_node)` together with its final
`visited` set. -/
def dijkstraFull [LinearOrder σ] [LinearOrderedField α] (g : Graph σ L α)
    (startNode endNode : σ) :
    (Cost α × List (σ × Option L) × ℕ) × Finset σ :=
  dijkstraLoop g endNode (fuelBound g) [⟨0, startNode, []⟩] ∅
    (update (fun _ => ⊤) startNode 0) 0

/-- `dijkstra(graph, start_node, end_node)`:
`(cost, path, nodes_visited_count)`. -/
def dijkstra [LinearOrder σ] [LinearOrderedField α] (g : Graph σ L α)
    (startNode endNode : σ) : Cost α × List (σ × Option L) × ℕ :=
  (dijkstraFull g startNode endNode).1

/-- The set of stations `dijkstra` expands (its final `visited` set). -/
def dijkstraVisited [LinearOrder σ] [LinearOrderedField α] (g : Graph σ L α)
    (startNode endNode : σ) : Finset σ :=
  (dijkstraFull g startNode endNode).2

/-! ## A* (`find_route.py`, lines 75–114)

The body of `a_star` uses its `stations_data` argument only through
`heuristic(neighbor, end_node, stations_data)`, so the loop is stated for an
arbitrary estimate function `h : σ → α` and `a_star` instantiates
`h := fun v => heuristic v endNode stationsData`. -/

/-- The edge relaxation loop of `a_star`: identical to `relaxD` except that
the pushed entry is keyed by `f = tentative_g + h(neighbor)`. -/
def relaxA [LinearOrder σ] [LinearOrderedField α] (h : σ → α) (cur : σ) (curG : α)
    (path : List (σ × L)) :
    List (Edge σ L α) → List (AEntry σ L α) → (σ → Cost α) →
      List (AEntry σ L α) × (σ → Cost α)
  | [], q, t => (q, t)
  | e :: es, q, t =>
    if (curG + e.distance : α) < t e.dest then
      relaxA h cur curG path es
        (⟨curG + e.distance + h e.dest, curG + e.distance, e.dest, path ++ [(cur, e.line)]⟩ :: q)
        (update t e.dest (curG + e.distance))
    else
      relaxA h cur curG path es q t

/-- The `while queue:` loop of `a_star`. -/
def aStarLoop [LinearOrder σ] [LinearOrderedField α] (g : Graph σ L α) (endNode : σ)
    (h : σ → α) :
    ℕ → List (AEntry σ L α) → Finset σ → (σ → Cost α) → ℕ →
      (Cost α × List (σ × Option L) × ℕ) × Finset σ
  | _, [], visited, _, n => ((⊤, [], n), visited)
  | 0, _ :: _, visited, _, n => ((⊤, [], n), visited)
  | fuel + 1, b :: bs, visited, t, n =>
    let pr := popMin aKey b bs
    let cur := pr.1
    if cur.node = endNode then
      ((↑cur.gScore, cur.path.map (fun sl => (sl.1, some sl.2)) ++ [(cur.node, none)], n + 1),
        visited)
    else if cur.node ∈ visited then
      aStarLoop g endNode h fuel pr.2 visited t (n + 1)
    else if cur.node ∈ g.keys then
      let rt := relaxA h cur.node cur.gScore cur.path (g.adj cur.node) pr.2 t
      aStarLoop g endNode h fuel rt.1 (insert cur.node visited) rt.2 (n + 1)
    else
      aStarLoop g endNode h fuel pr.2 (insert cur.node visited) t (n + 1)

/-- The A* search for an arbitrary estimate function, with its final
`visited` set. -/
def aStarFullH [LinearOrder σ] [LinearOrderedField α] (g : Graph σ L α)
    (startNode endNode : σ) (h : σ → α) :
    (Cost α × List (σ × Option L) × ℕ) × Finset σ :=
  aStarLoop g endNode h (fuelBound g) [⟨0, 0, startNode, []⟩] ∅
    (update (fun _ => ⊤) startNode 0) 0

/-! ## Geodesic distance and heuristic (`find_route.py`, lines 14–40) -/

/-- `haversine(lat1, lon1, lat2, lon2)`: great-circle distance in km, Earth
radius 6371, after converting decimal degrees to radians.  (`noncomputable`
only because real trigonometric functions are; the Python source computes the
same formula in floating point.) -/
noncomputable def haversine (lat1 lon1 lat2 lon2 : ℝ) : ℝ :=
  let lat1r := lat1 * (Real.pi / 180)
  let lon1r := lon1 * (Real.pi / 180)
  let lat2r := lat2 * (Real.pi / 180)
  let lon2r := lon2 * (Real.pi / 180)
  let dlon := lon2r - lon1r
  let dlat := lat2r - lat1r
  let a := Real.sin (dlat / 2) ^ 2 +
    Real.cos lat1r * Real.cos lat2r * Real.sin (dlon / 2) ^ 2
  let c := 2 * Real.arcsin (Real.sqrt a)
  c * 6371

/-- `heuristic(node, target, stations_data)`: straight-line distance to the
target, or `0` if either station is absent from the metadata table. -/
noncomputable def heuristic (node target : σ) (stationsData : σ → Option Coords) : ℝ :=
  match stationsData node, stationsData target with
  | some c1, some c2 => haversine c1.lat c1.lon c2.lat c2.lon
  | _, _ => 0

/-- `a_star(graph, start_node, end_node, stations_data)` with its final
`visited` set. -/
noncomputable def aStarFull [LinearOrder σ] (g : Graph σ L ℝ) (startNode endNode : σ)
    (stationsData : σ → Option Coords) :
    (Cost ℝ × List (σ × Option L) × ℕ) × Finset σ :=
  aStarFullH g startNode endNode (fun v => heuristic v endNode stationsData)

/-- `a_star(graph, start_node, end_node, stations_data)`:
`(cost, path, nodes_visited_count)`. -/
noncomputable def a_star [LinearOrder σ] (g : Graph σ L ℝ) (startNode endNode : σ)
    (stationsData : σ → Option Coords) : Cost ℝ × List (σ × Option L) × ℕ :=
  (aStarFull g startNode endNode stationsData).1

/-- The set of stations `a_star` expands (its final `visited` set). -/
noncomputable def aStarVisited [LinearOrder σ] (g : Graph σ L ℝ) (startNode endNode : σ)
    (stationsData : σ → Option Coords) : Finset σ :=
  (aStarFull g startNode endNode stationsData).2

/-! ## Path reconstruction (`find_route.py`, lines 116–134) -/

/-- The `for i in range(len(path_data) - 1)` loop of `format_path`, carried
over the `(stations_path, lines_used)` accumulator.  The Python guard
`if not lines_used or lines_used[-1] != line` is exactly
`linesUsed.getLast? ≠ some line`. -/
def formatLoop [DecidableEq L] :
    List (σ × Option L) → List σ × List (Option L) → List σ × List (Option L)
  | [], acc => acc
  | (station, line) :: rest, acc =>
    formatLoop rest
      (acc.1 ++ [station],
        if acc.2.getLast? ≠ some line then acc.2 ++ [line] else acc.2)

/-- `format_path(path_data)`: `none` models the `"No path found."` branch,
otherwise `{'route': …, 'lines': …}`. -/
def format_path [DecidableEq L] : List (σ × Option L) → Option (List σ × List (Option L))
  | [] => none
  | x :: xs =>
    let acc := formatLoop (x :: xs).dropLast ([], [])
    some (acc.1 ++ [((x :: xs).getLast (List.cons_ne_nil x xs)).1], acc.2)

/-- The percentage-reduction computation of `main`:
`((d_nodes - a_nodes) / d_nodes) * 100`. -/
def improvement (dNodes aNodes : ℕ) : ℚ :=
  ((dNodes : ℚ) - (aNodes : ℚ)) / (dNodes : ℚ) * 100

/-! ## Basic lemmas about the queue -/

theorem popMin_perm {ε κ : Type} [LinearOrder κ] (key : ε → κ) (b : ε) (l : List ε) :
    (popMin key b l).1 ::ₘ ((popMin key b l).2 : Multiset ε) = b ::ₘ (l : Multiset ε) := by
  induction l generalizing b with
  | nil => simp [popMin]
  | cons x xs ih =>
    by_cases h : key x < key b
    · simp only [popMin, if_pos h, ← Multiset.cons_coe]
      rw [Multiset.cons_swap, ih x]
    · simp only [popMin, if_neg h, ← Multiset.cons_coe]
      rw [Multiset.cons_swap, ih b, Multiset.cons_swap]

theorem popMin_le {ε κ : Type} [LinearOrder κ] (key : ε → κ) (b : ε) (l : List ε) :
    ∀ x ∈ b :: l, key (popMin key b l).1 ≤ key x := by
  induction l generalizing b with
  | nil =>
    intro x hx
    rw [List.mem_singleton] at hx
    subst hx
    simp [popMin]
  | cons y ys ih =>
    intro x hx
    by_cases h : key y < key b
    · simp only [popMin, if_pos h]
      rcases List.mem_cons.mp hx with rfl | hx
      · exact le_trans (ih y y (List.mem_cons_self y ys)) h.le
      · exact ih y x hx
    · simp only [popMin, if_neg h]
      have hb : key (popMin key b ys).1 ≤ key b := ih b b (List.mem_cons_self b ys)
      rcases List.mem_cons.mp hx with rfl | hx
      · exact hb
      · rcases List.mem_cons.mp hx with rfl | hx
        · exact le_trans hb (not_lt.mp h)
        · exact ih b x (List.mem_cons_of_mem b hx)

theorem popMin_mem {ε κ : Type} [LinearOrder κ] (key : ε → κ) (b : ε) (l : List ε) :
    (popMin key b l).1 ∈ b :: l := by
  have h := popMin_perm key b l
  have : (popMin key b l).1 ∈ (b ::ₘ (l : Multiset ε)) := by
    rw [← h]; exact Multiset.mem_cons_self _ _
  simpa using this

theorem popMin_rest_mem {ε κ : Type} [LinearOrder κ] (key : ε → κ) (b : ε) (l : List ε) :
    ∀ x ∈ (popMin key b l).2, x ∈ b :: l := by
  intro x hx
  have h := popMin_perm key b l
  have : x ∈ (b ::ₘ (l : Multiset ε)) := by
    rw [← h]; exact Multiset.mem_cons_of_mem (by simpa using hx)
  simpa using this

theorem popMin_length {ε κ : Type} [LinearOrder κ] (key : ε → κ) (b : ε) (l : List ε) :
    (popMin key b l).2.length = l.length := by
  have h := congrArg Multiset.card (popMin_perm key b l)
  simpa using h

/-! ## Basic lemmas about walks -/

section WalkLemmas

variable [LinearOrder σ] [LinearOrderedField α] {g : Graph σ L α}

theorem Walk.nonneg (hw : NonnegWeights g) {u v : σ} {c : α}
    (w : Walk g u v c) : 0 ≤ c := by
  induction w with
  | nil => exact le_rfl
  | cons e hu he _ ih => exact add_nonneg (hw _ hu _ he) ih

theorem Walk.cast {u v : σ} {c c' : α} (w : Walk g u v c) (h : c = c') :
    Walk g u v c' := h ▸ w

theorem Walk.trans {u v x : σ} {c₁ c₂ : α} (w₁ : Walk g u v c₁) (w₂ : Walk g v x c₂) :
    Walk g u x (c₁ + c₂) := by
  induction w₁ with
  | nil => exact w₂.cast (zero_add _).symm
  | cons e hu he _ ih => exact (Walk.cons e hu he (ih w₂)).cast (add_assoc _ _ _).symm

theorem IsWalk.toWalk {s : σ} {p : List (σ × L)} {v : σ} {c : α}
    (w : IsWalk g s p v c) : Walk g s v c := by
  induction w with
  | nil => exact Walk.nil s
  | snoc e _ hu he ih =>
    exact (ih.trans ((Walk.cons e hu he (Walk.nil e.dest)).cast (add_zero _)))

/-- Consistency of an estimate function on every edge of the graph. -/
def ConsistentWith (g : Graph σ L α) (h : σ → α) : Prop :=
  ∀ u ∈ g.keys, ∀ e ∈ g.adj u, h u ≤ e.distance + h e.dest

/-- An estimate consistent on every edge telescopes along any walk. -/
theorem ConsistentWith.le_walk {h : σ → α} (hc : ConsistentWith g h)
    {z v : σ} {c : α} (w : Walk g z v c) : h z ≤ c + h v := by
  induction w with
  | nil => simp
  | cons e hu he _ ih => linarith [hc _ hu _ he]

/-- Any walk to a station outside `V` crosses the border of `V`: it splits
into a prefix walk whose inner stations all lie in `V` followed by a walk
from a station outside `V`. -/
theorem Walk.frontier_split {V : Finset σ} {u v : σ} {c : α} (w : Walk g u v c)
    (hv : v ∉ V) :
    ∃ z c₁ c₂, WalkV g V u z c₁ ∧ z ∉ V ∧ Walk g z v c₂ ∧ c = c₁ + c₂ := by
  induction w with
  | nil => exact ⟨_, 0, 0, WalkV.nil _, hv, Walk.nil _, (zero_add 0).symm⟩
  | cons e hu he w ih =>
    rename_i u' v' c'
    by_cases huV : u' ∈ V
    · obtain ⟨z, c₁, c₂, hwv, hz, hw2, hc⟩ := ih hv
      exact ⟨z, e.distance + c₁, c₂, WalkV.cons e huV hu he hwv, hz, hw2, by
        rw [hc]; ring⟩
    · exact ⟨u', 0, e.distance + c', WalkV.nil _, huV, Walk.cons e hu he w,
        (zero_add _).symm⟩

/-- Relaxation has been completed from every station of `V`: the telescoping
consequence along a `WalkV`. -/
theorem walkV_telescope {V : Finset σ} {t : σ → Cost α}
    (hrelax : ∀ v ∈ V, v ∈ g.keys → ∀ e ∈ g.adj v, t e.dest ≤ t v + ↑e.distance)
    {u z : σ} {c : α} (w : WalkV g V u z c) : t z ≤ t u + ↑c := by
  induction w with
  | nil => simp
  | cons e hv hu he _ ih =>
    rename_i u' v' c' _
    refine le_trans ih ?_
    have h1 : t e.dest ≤ t u' + ↑e.distance := hrelax _ hv hu _ he
    have h2 : t e.dest + (↑c' : Cost α) ≤ (t u' + ↑e.distance) + ↑c' :=
      add_le_add_right h1 _
    have h3 : (t u' + ↑e.distance) + (↑c' : Cost α) = t u' + ↑(e.distance + c') := by
      rw [WithTop.coe_add, add_assoc]
    exact h3 ▸ h2

end WalkLemmas

/-! ## Lemmas about `haversine` and `heuristic` -/

theorem haversine_self (lat lon : ℝ) : haversine lat lon lat lon = 0 := by
  simp [haversine]

theorem haversine_symm (lat1 lon1 lat2 lon2 : ℝ) :
    haversine lat1 lon1 lat2 lon2 = haversine lat2 lon2 lat1 lon1 := by
  have key : ∀ x y : ℝ, Real.sin ((x - y) / 2) ^ 2 = Real.sin ((y - x) / 2) ^ 2 := by
    intro x y
    rw [show (x - y) / 2 = -((y - x) / 2) by ring, Real.sin_neg]
    ring
  simp only [haversine]
  rw [key (lat2 * (Real.pi / 180)) (lat1 * (Real.pi / 180)),
    key (lon2 * (Real.pi / 180)) (lon1 * (Real.pi / 180)),
    mul_comm (Real.cos (lat1 * (Real.pi / 180))) (Real.cos (lat2 * (Real.pi / 180)))]

theorem haversine_nonneg (lat1 lon1 lat2 lon2 : ℝ) :
    0 ≤ haversine lat1 lon1 lat2 lon2 := by
  simp only [haversine]
  have h1 : 0 ≤ Real.arcsin (Real.sqrt (Real.sin ((lat2 * (Real.pi / 180) -
      lat1 * (Real.pi / 180)) / 2) ^ 2 + Real.cos (lat1 * (Real.pi / 180)) *
      Real.cos (lat2 * (Real.pi / 180)) *
      Real.sin ((lon2 * (Real.pi / 180) - lon1 * (Real.pi / 180)) / 2) ^ 2)) :=
    Real.arcsin_nonneg.mpr (Real.sqrt_nonneg _)
  nlinarith

theorem heuristic_nonneg (node target : σ) (md : σ → Option Coords) :
    0 ≤ heuristic node target md := by
  cases h1 : md node <;> cases h2 : md target <;>
    simp [heuristic, h1, h2, haversine_nonneg]

/-- The heuristic estimate at the target itself is `0` (either the target is
missing from the table, or it is the geodesic distance from a point to
itself). -/
theorem heuristic_self (v : σ) (md : σ → Option Coords) : heuristic v v md = 0 := by
  cases h1 : md v <;> simp [heuristic, h1, haversine_self]

/-! ## Lemmas about `format_path` -/

section FormatLemmas

variable [DecidableEq L]

theorem formatLoop_fst (l : List (σ × Option L)) (sp : List σ) (lu : List (Option L)) :
    (formatLoop l (sp, lu)).1 = sp ++ l.map Prod.fst := by
  induction l generalizing sp lu with
  | nil => simp [formatLoop]
  | cons x rest ih =>
    obtain ⟨st, ln⟩ := x
    simp [formatLoop, ih]

theorem formatLoop_snd (l : List (σ × Option L)) (sp : List σ) (lu : List (Option L))
    (a : Option L) :
    (formatLoop l (sp, lu ++ [a])).2 =
      lu ++ List.destutter' (· ≠ ·) a (l.map Prod.snd) := by
  induction l generalizing sp lu a with
  | nil => simp [formatLoop, List.destutter']
  | cons x rest ih =>
    obtain ⟨st, ln⟩ := x
    by_cases h : a = ln
    · subst h
      simp only [formatLoop, List.getLast?_concat, ne_eq, not_true_eq_false, ite_false,
        List.map_cons, List.destutter', if_neg (by simp : ¬ (a ≠ a))]
      exact ih (sp ++ [st]) lu a
    · simp only [formatLoop, List.getLast?_concat, ne_eq, List.map_cons, List.destutter']
      rw [if_pos (by simpa using h), if_pos h]
      have := ih (sp ++ [st]) (lu ++ [a]) ln
      rw [List.append_assoc] at this ⊢
      simpa using this

/-- The full characterisation of `format_path` on a non-empty path: the route
is the station list in order, and the line list is the line sequence of all
but the final pair with consecutive duplicates collapsed. -/
theorem format_path_eq (p : List (σ × Option L)) (hne : p ≠ []) :
    format_path p =
      some (p.map Prod.fst, (p.dropLast.map Prod.snd).destutter (· ≠ ·)) := by
  obtain ⟨x, xs, rfl⟩ := List.exists_cons_of_ne_nil hne
  simp only [format_path]
  cases hd : (x :: xs).dropLast with
  | nil =>
    have hp : x :: xs = [(x :: xs).getLast (List.cons_ne_nil x xs)] := by
      conv_lhs => rw [← List.dropLast_append_getLast (List.cons_ne_nil x xs)]
      rw [hd, List.nil_append]
    simp only [formatLoop, hd, List.map_nil, List.destutter]
    refine congrArg some (Prod.ext ?_ rfl)
    simp only [List.nil_append]
    conv_rhs => rw [hp]
    simp
  | cons y ys =>
    obtain ⟨st, ln⟩ := y
    have h1 : (formatLoop ((st, ln) :: ys) ([], [])).1 = ((st, ln) :: ys).map Prod.fst := by
      rw [formatLoop_fst]
      simp
    have h2 : (formatLoop ((st, ln) :: ys) ([], [])).2 =
        List.destutter' (· ≠ ·) ln (ys.map Prod.snd) := by
      have : (formatLoop ys ([] ++ [st], [] ++ [ln])).2 =
          [] ++ List.destutter' (· ≠ ·) ln (ys.map Prod.snd) := formatLoop_snd ys _ [] ln
      simpa [formatLoop] using this
    refine congrArg some (Prod.ext ?_ ?_)
    · simp only [h1]
      have := List.dropLast_append_getLast (List.cons_ne_nil x xs)
      conv_rhs => rw [← this]
      rw [hd]
      simp
    · simp only [h2, hd, List.map_cons, List.destutter]

end FormatLemmas

/-! ## The search-loop invariant

All invariant work is done once, on the generic A* loop `aStarLoop` with an
arbitrary estimate `h : σ → α`; `dijkstra` is then handled by a step-by-step
simulation against `h ≡ 0` (its queue entries `(dist, node, path)` are the
`a_star` entries `(f, g, node, path)` with `f = g`, compared identically). -/

section SearchProofs

variable [LinearOrder σ] [LinearOrderedField α]
variable (g : Graph σ L α) (s endNode : σ) (h : σ → α)

/-- Dict-update helper lemmas. -/
theorem update_apply_self (t : σ → Cost α) (x : σ) (v : α) : update t x v x = ↑v :=
  if_pos rfl

theorem update_apply_ne (t : σ → Cost α) {y x : σ} (v : α) (hyx : y ≠ x) :
    update t x v y = t y := if_neg hyx

theorem update_le_of_le (t : σ → Cost α) {x : σ} {v : α} (hv : (↑v : Cost α) ≤ t x) :
    ∀ y, update t x v y ≤ t y := by
  intro y
  by_cases hyx : y = x
  · subst hyx; rw [update_apply_self]; exact hv
  · rw [update_apply_ne t v hyx]

/-- Lexicographic-key facts. -/
theorem aKey_le_fScore {x y : AEntry σ L α} (hxy : aKey x ≤ aKey y) :
    x.fScore ≤ y.fScore := by
  rcases (Prod.Lex.le_iff _ _).mp hxy with hlt | ⟨heq, _⟩
  · exact hlt.le
  · exact heq.le

theorem aKey_le_gScore {x y : AEntry σ L α} (hxy : aKey x ≤ aKey y)
    (hf : y.fScore ≤ x.fScore) : x.gScore ≤ y.gScore := by
  rcases (Prod.Lex.le_iff _ _).mp hxy with hlt | ⟨heq, h2⟩
  · exact absurd hf (not_le.mpr hlt)
  · rcases (Prod.Lex.le_iff _ _).mp h2 with hlt2 | ⟨heq2, _⟩
    · exact hlt2.le
    · exact heq2.le

/-- The part of the loop invariant that the relaxation loop preserves
verbatim.  `vis` is the visited set *after* the station being expanded has
been inserted. -/
structure PreInv (vis : Finset σ) (q : List (AEntry σ L α)) (t : σ → Cost α) : Prop where
  /-- Every queue entry carries a genuine walk from the start with its cost
  as `g`-score. -/
  walk : ∀ en ∈ q, IsWalk g s en.path en.node en.gScore
  /-- Every queue entry is keyed by `f = g + h(node)` — except the initial
  entry `(0, 0, start, [])`, whose `f` is the literal `0`. -/
  fkey : ∀ en ∈ q, en.fScore = en.gScore + h en.node ∨
    (en.fScore = 0 ∧ en.gScore = 0 ∧ en.node = s)
  /-- The best-known table is a lower bound for every live entry. -/
  tle : ∀ en ∈ q, t en.node ≤ (en.gScore : Cost α)
  /-- For an unvisited station, the minimum pushed `g` is still live. -/
  tmem : ∀ x, x ∉ vis → t x ≠ ⊤ → ∃ en ∈ q, en.node = x ∧ ((en.gScore : Cost α)) = t x
  /-- Visited stations have been settled with their optimal cost. -/
  opt : ∀ x ∈ vis, ∃ c : α, t x = ↑c ∧ Walk g s x c ∧ ∀ γ, Walk g s x γ → c ≤ γ
  /-- The table never rises above `0` at the start station. -/
  ts : t s ≤ ((0 : α) : Cost α)

/-- The full loop invariant. -/
structure SearchInv (vis : Finset σ) (q : List (AEntry σ L α)) (t : σ → Cost α) : Prop where
  pre : PreInv g s h vis q t
  /-- The search returns the moment the end station is dequeued, so it is
  never marked visited. -/
  endv : endNode ∉ vis
  /-- Relaxation has been completed from every visited station. -/
  relaxed : ∀ x ∈ vis, x ∈ g.keys → ∀ e ∈ g.adj x, t e.dest ≤ t x + ↑e.distance

variable {g s endNode h}

/-- Any walk from the start to an unvisited station is matched by a live
queue entry whose `f`-score does not exceed the walk cost plus the estimate
at its endpoint (or by the initial entry). -/
theorem SearchInv.frontier_entry {vis q t} (inv : SearchInv g s endNode h vis q t)
    (hc : ConsistentWith g h) {v : σ} (hv : v ∉ vis) {γ : α} (w : Walk g s v γ) :
    ∃ en ∈ q, en.fScore ≤ γ + h v ∨ (en.fScore = 0 ∧ en.gScore = 0) := by
  obtain ⟨z, c₁, c₂, hwv, hz, hw2, rfl⟩ := w.frontier_split hv
  have htz : t z ≤ ↑c₁ := by
    have h1 : t z ≤ t s + ↑c₁ := walkV_telescope inv.relaxed hwv
    have h2 : t s + (↑c₁ : Cost α) ≤ ↑(0 : α) + ↑c₁ := add_le_add_right inv.pre.ts _
    have h3 : ((0 : α) : Cost α) + ↑c₁ = ↑c₁ := by
      rw [← WithTop.coe_add, zero_add]
    exact le_trans h1 (le_trans h2 h3.le)
  obtain ⟨en, hen, henz, heng⟩ := inv.pre.tmem z hz (by
    intro htop
    rw [htop] at htz
    exact (WithTop.not_top_le_coe _) htz)
  refine ⟨en, hen, ?_⟩
  rcases inv.pre.fkey en hen with hf | ⟨hf0, hg0, _⟩
  · left
    have hgle : en.gScore ≤ c₁ := by
      rw [← WithTop.coe_le_coe]
      exact heng.le.trans htz
    have hcons : h z ≤ c₂ + h v := hc.le_walk hw2
    rw [hf, henz]
    linarith
  · exact Or.inr ⟨hf0, hg0⟩

/-- When the minimum queue entry is dequeued at an unvisited station, its
`g`-score is optimal among all walks from the start to that station. -/
theorem SearchInv.pop_opt {vis t b bs} (inv : SearchInv g s endNode h vis (b :: bs) t)
    (hw : NonnegWeights g) (hc : ConsistentWith g h) (hnn : ∀ x, 0 ≤ h x)
    (hv : (popMin aKey b bs).1.node ∉ vis) {γ : α}
    (w : Walk g s (popMin aKey b bs).1.node γ) :
    (popMin aKey b bs).1.gScore ≤ γ := by
  set m := (popMin aKey b bs).1 with hm
  have hmem : m ∈ b :: bs := popMin_mem aKey b bs
  have hγ0 : 0 ≤ γ := w.nonneg hw
  have hmg0 : 0 ≤ m.gScore := ((inv.pre.walk m hmem).toWalk).nonneg hw
  obtain ⟨en, hen, hcase⟩ := inv.frontier_entry hc hv w
  have hkey : aKey m ≤ aKey en := popMin_le aKey b bs en hen
  have hfle : m.fScore ≤ en.fScore := aKey_le_fScore hkey
  rcases inv.pre.fkey m hmem with hfm | ⟨_, hgm, _⟩
  · rcases hcase with hb | ⟨hf0, _⟩
    · -- m.g + h(v) ≤ en.f ≤ γ + h(v)
      have := hfle.trans hb
      rw [hfm] at this
      linarith
    · -- en is the initial entry: m.g + h(v) ≤ 0, so m.g = 0 ≤ γ
      rw [hf0] at hfle
      rw [hfm] at hfle
      have := hnn m.node
      linarith
  · rw [hgm]; exact hγ0

/-- When the minimum queue entry is dequeued at an unvisited station, the
best-known table already equals its `g`-score there. -/
theorem SearchInv.pop_t_eq {vis t b bs} (inv : SearchInv g s endNode h vis (b :: bs) t)
    (hw : NonnegWeights g) (hnn : ∀ x, 0 ≤ h x)
    (hv : (popMin aKey b bs).1.node ∉ vis) :
    t (popMin aKey b bs).1.node = ((popMin aKey b bs).1.gScore : Cost α) := by
  set m := (popMin aKey b bs).1 with hm
  have hmem : m ∈ b :: bs := popMin_mem aKey b bs
  have h1 : t m.node ≤ (m.gScore : Cost α) := inv.pre.tle m hmem
  have hmg0 : 0 ≤ m.gScore := ((inv.pre.walk m hmem).toWalk).nonneg hw
  refine le_antisymm h1 ?_
  have hne : t m.node ≠ ⊤ := by
    intro htop
    rw [htop] at h1
    exact (WithTop.not_top_le_coe _) h1
  obtain ⟨en, hen, henn, heng⟩ := inv.pre.tmem m.node hv hne
  have hkey : aKey m ≤ aKey en := popMin_le aKey b bs en hen
  have hfle : m.fScore ≤ en.fScore := aKey_le_fScore hkey
  have heng0 : 0 ≤ en.gScore := ((inv.pre.walk en hen).toWalk).nonneg hw
  rw [← heng, WithTop.coe_le_coe]
  rcases inv.pre.fkey m hmem with hfm | ⟨_, hgm, _⟩
  · rcases inv.pre.fkey en hen with hfe | ⟨hfe0, hge0, _⟩
    · -- both keyed by f = g + h(node); same node, so compare g directly
      rw [hfm, hfe, henn] at hfle
      linarith
    · -- en is the initial entry: m.g + h ≤ 0 forces m.g = 0 ≤ en.g
      rw [hfm, hfe0] at hfle
      have := hnn m.node
      linarith
  · rw [hgm]; exact heng0

/-- Preservation of `PreInv` through the edge-relaxation loop of an
expansion of station `v` (already inserted into `vis`, with its settled
entry recorded by `PreInv.opt`).  Also: the table never changes at stations
of `insert v vis`, it only decreases, every processed edge ends up relaxed,
and at most one entry per edge is pushed. -/
theorem relaxA_preserve (hw : NonnegWeights g) {vis : Finset σ} {v : σ} {gv : α}
    {p : List (σ × L)} (hvk : v ∈ g.keys) (hwalkp : IsWalk g s p v gv) :
    ∀ (es : List (Edge σ L α)), (∀ e ∈ es, e ∈ g.adj v) →
    ∀ (q : List (AEntry σ L α)) (t : σ → Cost α),
      PreInv g s h (insert v vis) q t →
      PreInv g s h (insert v vis) (relaxA h v gv p es q t).1 (relaxA h v gv p es q t).2 ∧
      (∀ x ∈ insert v vis, (relaxA h v gv p es q t).2 x = t x) ∧
      (∀ e ∈ es, (relaxA h v gv p es q t).2 e.dest ≤ ((gv + e.distance : α) : Cost α)) ∧
      (∀ x, (relaxA h v gv p es q t).2 x ≤ t x) ∧
      (relaxA h v gv p es q t).1.length ≤ q.length + es.length := by
  intro es
  induction es with
  | nil =>
    intro _ q t hpre
    exact ⟨hpre, fun x _ => rfl, by simp, fun x => le_rfl, by simp [relaxA]⟩
  | cons e es ih =>
    intro hes q t hpre
    have he : e ∈ g.adj v := hes e (List.mem_cons_self e es)
    have hes' : ∀ e' ∈ es, e' ∈ g.adj v := fun e' h' => hes e' (List.mem_cons_of_mem e h')
    by_cases hpush : ((gv + e.distance : α) : Cost α) < t e.dest
    · -- the entry is pushed and the table is updated
      have hunf : relaxA h v gv p (e :: es) q t =
          relaxA h v gv p es
            (⟨gv + e.distance + h e.dest, gv + e.distance, e.dest, p ++ [(v, e.line)]⟩ :: q)
            (update t e.dest (gv + e.distance)) := by
        simp only [relaxA, if_pos hpush]
      have hdest : e.dest ∉ insert v vis := by
        intro hmem
        obtain ⟨c, hc, hcw, hcmin⟩ := hpre.opt e.dest hmem
        have hwalk2 : Walk g s e.dest (gv + e.distance) :=
          hwalkp.toWalk.trans ((Walk.cons e hvk he (Walk.nil e.dest)).cast (add_zero _))
        have hle := hcmin _ hwalk2
        rw [hc] at hpush
        exact absurd hpush (not_lt.mpr (WithTop.coe_le_coe.mpr hle))
      have hpre1 : PreInv g s h (insert v vis)
          (⟨gv + e.distance + h e.dest, gv + e.distance, e.dest, p ++ [(v, e.line)]⟩ :: q)
          (update t e.dest (gv + e.distance)) := by
        constructor
        · intro en hen
          rcases List.mem_cons.mp hen with rfl | hen
          · exact IsWalk.snoc e hwalkp hvk he
          · exact hpre.walk en hen
        · intro en hen
          rcases List.mem_cons.mp hen with rfl | hen
          · exact Or.inl rfl
          · exact hpre.fkey en hen
        · intro en hen
          rcases List.mem_cons.mp hen with rfl | hen
          · exact (update_apply_self t _ _).le
          · exact le_trans (update_le_of_le t hpush.le _) (hpre.tle en hen)
        · intro x hx hne
          by_cases hxd : x = e.dest
          · subst hxd
            exact ⟨_, List.mem_cons_self _ _, rfl, (update_apply_self t _ _).symm⟩
          · rw [update_apply_ne t _ hxd] at hne
            obtain ⟨en, hen, h1, h2⟩ := hpre.tmem x hx hne
            exact ⟨en, List.mem_cons_of_mem _ hen, h1, by
              rw [update_apply_ne t _ hxd]; exact h2⟩
        · intro x hx
          obtain ⟨c, hc, hcw, hcm⟩ := hpre.opt x hx
          have hxd : x ≠ e.dest := fun hh => hdest (hh ▸ hx)
          exact ⟨c, by rw [update_apply_ne t _ hxd]; exact hc, hcw, hcm⟩
        · exact le_trans (update_le_of_le t hpush.le s) hpre.ts
      obtain ⟨hP, hfix, hproc, hmono, hlen⟩ := ih hes' _ _ hpre1
      rw [hunf]
      refine ⟨hP, ?_, ?_, ?_, ?_⟩
      · intro x hx
        have hxd : x ≠ e.dest := fun hh => hdest (hh ▸ hx)
        rw [hfix x hx, update_apply_ne t _ hxd]
      · intro e' he'
        rcases List.mem_cons.mp he' with rfl | he'
        · exact le_trans (hmono e'.dest) (update_apply_self t _ _).le
        · exact hproc e' he'
      · exact fun x => le_trans (hmono x) (update_le_of_le t hpush.le x)
      · simpa [List.length_cons, Nat.add_comm, Nat.add_left_comm] using
          Nat.le_trans hlen (by simp [List.length_cons]; omega)
    · -- no push: the edge was already relaxed
      have hunf : relaxA h v gv p (e :: es) q t = relaxA h v gv p es q t := by
        simp only [relaxA, if_neg hpush]
      obtain ⟨hP, hfix, hproc, hmono, hlen⟩ := ih hes' q t hpre
      rw [hunf]
      refine ⟨hP, hfix, ?_, hmono, by simpa using Nat.le_trans hlen (by omega)⟩
      intro e' he'
      rcases List.mem_cons.mp he' with rfl | he'
      · exact le_trans (hmono e'.dest) (not_lt.mp hpush)
      · exact hproc e' he'

/-- An entry of the old queue other than the popped minimum survives the pop. -/
theorem mem_popMin_rest_of_ne {ε κ : Type} [LinearOrder κ] (key : ε → κ) (b : ε)
    (l : List ε) {x : ε} (hx : x ∈ b :: l) (hne : x ≠ (popMin key b l).1) :
    x ∈ (popMin key b l).2 := by
  have hperm := popMin_perm key b l
  have hmem : x ∈ (popMin key b l).1 ::ₘ ((popMin key b l).2 : Multiset ε) := by
    rw [hperm]; simpa using hx
  rcases Multiset.mem_cons.mp hmem with hh | hh
  · exact absurd hh hne
  · simpa using hh

/-- The estimate never overestimates the true remaining cost to the end
station. -/
def AdmissibleTo (g : Graph σ L α) (h : σ → α) (endNode : σ) : Prop :=
  ∀ x γ, Walk g x endNode γ → h x ≤ γ

/-- Every dequeue (of any station) happens at an `f`-score below the cost of
every walk from the start to the end station, provided the estimate vanishes
at the end station and is admissible; stated in the combination
`g + h(node) ≤ γE` used by the node-expansion theorems. -/
theorem SearchInv.pop_fbound {vis t b bs} {m : AEntry σ L α} {q' : List (AEntry σ L α)}
    (hpop : popMin aKey b bs = (m, q'))
    (inv : SearchInv g s endNode h vis (b :: bs) t)
    (hw : NonnegWeights g) (hc : ConsistentWith g h)
    (hhe : h endNode = 0) (hadm : AdmissibleTo g h endNode)
    {γE : α} (wE : Walk g s endNode γE) :
    m.gScore + h m.node ≤ γE := by
  have hm1 : (popMin aKey b bs).1 = m := by rw [hpop]
  have hmem : m ∈ b :: bs := by rw [← hm1]; exact popMin_mem aKey b bs
  have hγE0 : 0 ≤ γE := wE.nonneg hw
  obtain ⟨en, hen, hcase⟩ := inv.frontier_entry hc inv.endv wE
  have hkey : aKey m ≤ aKey en := by
    rw [← hm1]; exact popMin_le aKey b bs en hen
  have hfle : m.fScore ≤ en.fScore := aKey_le_fScore hkey
  rcases inv.pre.fkey m hmem with hfm | ⟨hf0, hg0, hnode⟩
  · rcases hcase with hb | ⟨he0, _⟩
    · rw [hhe] at hb
      rw [hfm] at hfle
      linarith
    · rw [he0] at hfle
      rw [hfm] at hfle
      linarith
  · rw [hg0, hnode, zero_add]
    exact hadm s γE wE

/-- Skipping an already-visited dequeued entry preserves the invariant. -/
theorem SearchInv.skip {vis t b bs} {m : AEntry σ L α} {q' : List (AEntry σ L α)}
    (hpop : popMin aKey b bs = (m, q'))
    (inv : SearchInv g s endNode h vis (b :: bs) t)
    (hvis : m.node ∈ vis) : SearchInv g s endNode h vis q' t := by
  have hrest : ∀ x ∈ q', x ∈ b :: bs := by
    intro x hx
    exact popMin_rest_mem aKey b bs x (by rw [hpop]; exact hx)
  refine ⟨⟨?_, ?_, ?_, ?_, inv.pre.opt, inv.pre.ts⟩, inv.endv, inv.relaxed⟩
  · exact fun en hen => inv.pre.walk en (hrest en hen)
  · exact fun en hen => inv.pre.fkey en (hrest en hen)
  · exact fun en hen => inv.pre.tle en (hrest en hen)
  · intro x hx hne
    obtain ⟨en, hen, h1, h2⟩ := inv.pre.tmem x hx hne
    have henm : en ≠ m := by
      intro hh
      rw [hh] at h1
      rw [h1] at hvis
      exact hx hvis
    refine ⟨en, ?_, h1, h2⟩
    have := mem_popMin_rest_of_ne aKey b bs hen (by rw [hpop]; exact henm)
    rw [hpop] at this
    exact this

/-- The post-pop queue together with the new visited set satisfies `PreInv`
(the settled entry for the freshly expanded station is justified by
`pop_opt` and `pop_t_eq`). -/
theorem SearchInv.pre_expand {vis t b bs} {m : AEntry σ L α} {q' : List (AEntry σ L α)}
    (hpop : popMin aKey b bs = (m, q'))
    (inv : SearchInv g s endNode h vis (b :: bs) t)
    (hw : NonnegWeights g) (hc : ConsistentWith g h) (hnn : ∀ x, 0 ≤ h x)
    (hnv : m.node ∉ vis) :
    PreInv g s h (insert m.node vis) q' t := by
  have hm1 : (popMin aKey b bs).1 = m := by rw [hpop]
  have hmem : m ∈ b :: bs := by rw [← hm1]; exact popMin_mem aKey b bs
  have hrest : ∀ x ∈ q', x ∈ b :: bs := by
    intro x hx
    exact popMin_rest_mem aKey b bs x (by rw [hpop]; exact hx)
  have hopt_m : ∀ γ, Walk g s m.node γ → m.gScore ≤ γ := by
    intro γ w
    have := inv.pop_opt hw hc hnn (hm1.symm ▸ hnv) (hm1.symm ▸ w)
    rwa [hm1] at this
  have ht_eq : t m.node = (m.gScore : Cost α) := by
    have := inv.pop_t_eq hw hnn (hm1.symm ▸ hnv)
    rwa [hm1] at this
  refine ⟨?_, ?_, ?_, ?_, ?_, inv.pre.ts⟩
  · exact fun en hen => inv.pre.walk en (hrest en hen)
  · exact fun en hen => inv.pre.fkey en (hrest en hen)
  · exact fun en hen => inv.pre.tle en (hrest en hen)
  · intro x hx hne
    have hxv : x ∉ vis := fun hh => hx (Finset.mem_insert_of_mem hh)
    have hxm : x ≠ m.node := fun hh => hx (hh ▸ Finset.mem_insert_self _ _)
    obtain ⟨en, hen, h1, h2⟩ := inv.pre.tmem x hxv hne
    have henm : en ≠ m := fun hh => hxm (by rw [← h1, hh])
    refine ⟨en, ?_, h1, h2⟩
    have := mem_popMin_rest_of_ne aKey b bs hen (by rw [hpop]; exact henm)
    rw [hpop] at this
    exact this
  · intro x hx
    rcases Finset.mem_insert.mp hx with rfl | hx
    · exact ⟨m.gScore, ht_eq, (inv.pre.walk m hmem).toWalk, hopt_m⟩
    · exact inv.pre.opt x hx

/-- Expanding a station with no outgoing edges (absent from the adjacency
dict) preserves the invariant. -/
theorem SearchInv.expand_leaf {vis t b bs} {m : AEntry σ L α} {q' : List (AEntry σ L α)}
    (hpop : popMin aKey b bs = (m, q'))
    (inv : SearchInv g s endNode h vis (b :: bs) t)
    (hw : NonnegWeights g) (hc : ConsistentWith g h) (hnn : ∀ x, 0 ≤ h x)
    (hnv : m.node ∉ vis) (hne : m.node ≠ endNode) (hkeys : m.node ∉ g.keys) :
    SearchInv g s endNode h (insert m.node vis) q' t := by
  refine ⟨inv.pre_expand hpop hw hc hnn hnv, ?_, ?_⟩
  · intro hh
    rcases Finset.mem_insert.mp hh with hh | hh
    · exact hne hh.symm
    · exact inv.endv hh
  · intro x hx hxk e he
    rcases Finset.mem_insert.mp hx with rfl | hx
    · exact absurd hxk hkeys
    · exact inv.relaxed x hx hxk e he

/-- Expanding a station with outgoing edges: after the relaxation loop the
full invariant holds for the new state, and the queue grew by at most the
station's degree. -/
theorem SearchInv.expand {vis t b bs} {m : AEntry σ L α} {q' : List (AEntry σ L α)}
    (hpop : popMin aKey b bs = (m, q'))
    (inv : SearchInv g s endNode h vis (b :: bs) t)
    (hw : NonnegWeights g) (hc : ConsistentWith g h) (hnn : ∀ x, 0 ≤ h x)
    (hnv : m.node ∉ vis) (hne : m.node ≠ endNode) (hkeys : m.node ∈ g.keys) :
    SearchInv g s endNode h (insert m.node vis)
      (relaxA h m.node m.gScore m.path (g.adj m.node) q' t).1
      (relaxA h m.node m.gScore m.path (g.adj m.node) q' t).2 ∧
    (relaxA h m.node m.gScore m.path (g.adj m.node) q' t).1.length ≤
      q'.length + (g.adj m.node).length := by
  have hm1 : (popMin aKey b bs).1 = m := by rw [hpop]
  have hmem : m ∈ b :: bs := by rw [← hm1]; exact popMin_mem aKey b bs
  have hwalkm : IsWalk g s m.path m.node m.gScore := inv.pre.walk m hmem
  have hpre' := inv.pre_expand hpop hw hc hnn hnv
  obtain ⟨hP, hfix, hproc, hmono, hlen⟩ :=
    relaxA_preserve hw hkeys hwalkm (g.adj m.node) (fun e he => he) q' t hpre'
  refine ⟨⟨hP, ?_, ?_⟩, hlen⟩
  · intro hh
    rcases Finset.mem_insert.mp hh with hh | hh
    · exact hne hh.symm
    · exact inv.endv hh
  · intro x hx hxk e he
    rcases Finset.mem_insert.mp hx with rfl | hx
    · have h1 := hproc e he
      have h2 : (relaxA h m.node m.gScore m.path (g.adj m.node) q' t).2 m.node = t m.node :=
        hfix m.node (Finset.mem_insert_self _ _)
      have h3 : t m.node = (m.gScore : Cost α) := by
        have := inv.pop_t_eq hw hnn (hm1.symm ▸ hnv)
        rwa [hm1] at this
      rw [h2, h3]
      rw [WithTop.coe_add] at h1
      exact h1
    · have h1 := hmono e.dest
      have h2 := inv.relaxed x hx hxk e he
      have h3 : (relaxA h m.node m.gScore m.path (g.adj m.node) q' t).2 x = t x :=
        hfix x (Finset.mem_insert_of_mem hx)
      rw [h3]
      exact le_trans h1 h2

/-- Loop potential: queue length plus the total degree of unexpanded graph
keys.  Strictly decreases at every iteration, which bounds the number of
iterations by `fuelBound`. -/
def phi (g : Graph σ L α) (q : List (AEntry σ L α)) (vis : Finset σ) : ℕ :=
  q.length + Finset.sum (g.keys \ vis) (fun x => (g.adj x).length)

/-- Everything the main induction proves about one run of the search loop:
the returned cost is the exact minimum walk cost (`⊤` iff no walk); when the
estimate vanishes at the end station, every expanded station is within the
goal contour (`best g + h ≤` every start-to-end walk cost), and every
station strictly inside the contour of the returned cost has been expanded. -/
def LoopGood (g : Graph σ L α) (s endNode : σ) (h : σ → α) (vis : Finset σ)
    (R : (Cost α × List (σ × Option L) × ℕ) × Finset σ) : Prop :=
  (R.1.1 = ⊤ → ∀ γ : α, ¬Walk g s endNode γ) ∧
  (∀ c : α, R.1.1 = ↑c → Walk g s endNode c ∧ ∀ γ, Walk g s endNode γ → c ≤ γ) ∧
  (h endNode = 0 → AdmissibleTo g h endNode →
    ∀ x ∈ R.2, x ∈ vis ∨
      ∃ γ : α, Walk g s x γ ∧ ∀ γE : α, Walk g s endNode γE → γ + h x ≤ γE) ∧
  (h endNode = 0 → ∀ c : α, R.1.1 = ↑c →
    ∀ x γx, Walk g s x γx → γx + h x < c → x ∈ R.2)

theorem aStarLoop_nil (fuel : ℕ) (vis : Finset σ) (t : σ → Cost α) (n : ℕ) :
    aStarLoop g endNode h fuel [] vis t n = ((⊤, [], n), vis) := by
  cases fuel <;> rfl

theorem loopGood_empty {vis : Finset σ} {t : σ → Cost α}
    (inv : SearchInv g s endNode h vis [] t) (hc : ConsistentWith g h)
    (fuel n : ℕ) :
    LoopGood g s endNode h vis (aStarLoop g endNode h fuel [] vis t n) := by
  rw [aStarLoop_nil]
  refine ⟨?_, ?_, ?_, ?_⟩
  · intro _ γ w
    obtain ⟨en, hen, _⟩ := inv.frontier_entry hc inv.endv w
    exact absurd hen (List.not_mem_nil en)
  · intro c hc_eq
    exact absurd hc_eq (by simp)
  · intro _ _ x hx
    exact Or.inl hx
  · intro _ c hc_eq
    exact absurd hc_eq (by simp)

/-- The main induction: from any state satisfying the invariant, with fuel at
least the potential, the loop's result is fully characterised. -/
theorem aStarLoop_correct (hw : NonnegWeights g) (hc : ConsistentWith g h)
    (hnn : ∀ x, 0 ≤ h x) :
    ∀ (fuel : ℕ) (q : List (AEntry σ L α)) (vis : Finset σ) (t : σ → Cost α) (n : ℕ),
      SearchInv g s endNode h vis q t → phi g q vis ≤ fuel →
      LoopGood g s endNode h vis (aStarLoop g endNode h fuel q vis t n) := by
  intro fuel
  induction fuel with
  | zero =>
    intro q vis t n inv hphi
    match q with
    | [] => exact loopGood_empty inv hc 0 n
    | b :: bs =>
      exfalso
      simp only [phi, List.length_cons] at hphi
      omega
  | succ fuel ih =>
    intro q vis t n inv hphi
    match q with
    | [] => exact loopGood_empty inv hc (fuel + 1) n
    | b :: bs =>
      rcases hpop : popMin aKey b bs with ⟨m, q'⟩
      have hm1 : (popMin aKey b bs).1 = m := by rw [hpop]
      have hmem : m ∈ b :: bs := by rw [← hm1]; exact popMin_mem aKey b bs
      have hq'len : q'.length = bs.length := by
        have := popMin_length aKey b bs
        rw [hpop] at this
        exact this
      simp only [aStarLoop, hpop]
      by_cases hend : m.node = endNode
      · rw [if_pos hend]
        refine ⟨?_, ?_, ?_, ?_⟩
        · intro htop
          exact absurd htop (by simp)
        · intro c hc_eq
          have hgc : m.gScore = c := by
            simpa using hc_eq
          constructor
          · rw [← hgc, ← hend]
            exact (inv.pre.walk m hmem).toWalk
          · intro γ w
            rw [← hgc]
            have hnv : (popMin aKey b bs).1.node ∉ vis := by
              rw [hm1, hend]
              exact inv.endv
            have := inv.pop_opt hw hc hnn hnv (by rw [hm1, hend]; exact w)
            rwa [hm1] at this
        · intro hhe hadm x hx
          exact Or.inl hx
        · intro hhe c hc_eq x γx wx hlt
          have hgc : m.gScore = c := by simpa using hc_eq
          by_cases hxv : x ∈ vis
          · exact hxv
          · exfalso
            have hγx0 : 0 ≤ γx := wx.nonneg hw
            have hhx0 : 0 ≤ h x := hnn x
            obtain ⟨en, hen, hcase⟩ := inv.frontier_entry hc hxv wx
            have hfle : m.fScore ≤ en.fScore := by
              refine aKey_le_fScore ?_
              rw [← hm1]
              exact popMin_le aKey b bs en hen
            rcases inv.pre.fkey m hmem with hfm | ⟨hf0, hg0, _⟩
            · rw [hend, hhe, add_zero] at hfm
              rcases hcase with hb | ⟨he0, _⟩
              · linarith
              · linarith
            · rcases hcase with hb | ⟨he0, _⟩
              · linarith
              · linarith
      · rw [if_neg hend]
        by_cases hvis : m.node ∈ vis
        · rw [if_pos hvis]
          have inv' := inv.skip hpop hvis
          have hphi' : phi g q' vis ≤ fuel := by
            simp only [phi, List.length_cons] at hphi ⊢
            rw [hq'len]
            omega
          exact ih q' vis t (n + 1) inv' hphi'
        · rw [if_neg hvis]
          by_cases hkeys : m.node ∈ g.keys
          · rw [if_pos hkeys]
            obtain ⟨inv', hlen⟩ := inv.expand hpop hw hc hnn hvis hend hkeys
            have hsum : Finset.sum (g.keys \ vis) (fun x => (g.adj x).length) =
                (g.adj m.node).length +
                  Finset.sum (g.keys \ insert m.node vis) (fun x => (g.adj x).length) := by
              have hv : m.node ∈ g.keys \ vis := Finset.mem_sdiff.mpr ⟨hkeys, hvis⟩
              have hset : g.keys \ insert m.node vis = (g.keys \ vis).erase m.node := by
                ext x
                simp only [Finset.mem_sdiff, Finset.mem_erase, Finset.mem_insert, not_or]
                tauto
              rw [hset, ← Finset.add_sum_erase _ (fun x => (g.adj x).length) hv]
            have hphi' : phi g
                (relaxA h m.node m.gScore m.path (g.adj m.node) q' t).1
                (insert m.node vis) ≤ fuel := by
              simp only [phi, List.length_cons] at hphi ⊢
              rw [hsum] at hphi
              rw [hq'len] at hlen
              omega
            have IH := ih _ _ _ (n + 1) inv' hphi'
            refine ⟨IH.1, IH.2.1, ?_, IH.2.2.2⟩
            intro hhe hadm x hx
            rcases IH.2.2.1 hhe hadm x hx with hx' | hgood
            · rcases Finset.mem_insert.mp hx' with rfl | hx''
              · right
                refine ⟨m.gScore, (inv.pre.walk m hmem).toWalk, ?_⟩
                intro γE wE
                exact inv.pop_fbound hpop hw hc hhe hadm wE
              · exact Or.inl hx''
            · exact Or.inr hgood
          · rw [if_neg hkeys]
            have inv' := inv.expand_leaf hpop hw hc hnn hvis hend hkeys
            have hset : g.keys \ insert m.node vis = g.keys \ vis := by
              ext x
              simp only [Finset.mem_sdiff, Finset.mem_insert, not_or]
              constructor
              · rintro ⟨h1, _, h3⟩; exact ⟨h1, h3⟩
              · rintro ⟨h1, h3⟩
                exact ⟨h1, fun hh => hkeys (hh ▸ h1), h3⟩
            have hphi' : phi g q' (insert m.node vis) ≤ fuel := by
              simp only [phi, List.length_cons] at hphi ⊢
              rw [hset, hq'len]
              omega
            have IH := ih q' (insert m.node vis) t (n + 1) inv' hphi'
            refine ⟨IH.1, IH.2.1, ?_, IH.2.2.2⟩
            intro hhe hadm x hx
            rcases IH.2.2.1 hhe hadm x hx with hx' | hgood
            · rcases Finset.mem_insert.mp hx' with rfl | hx''
              · right
                refine ⟨m.gScore, (inv.pre.walk m hmem).toWalk, ?_⟩
                intro γE wE
                exact inv.pop_fbound hpop hw hc hhe hadm wE
              · exact Or.inl hx''
            · exact Or.inr hgood

/-- The invariant holds in the initial state of either search. -/
theorem searchInv_init (g : Graph σ L α) (s endNode : σ) (h : σ → α) :
    SearchInv g s endNode h ∅ [⟨0, 0, s, []⟩] (update (fun _ => ⊤) s 0) := by
  refine ⟨⟨?_, ?_, ?_, ?_, ?_, ?_⟩, Finset.not_mem_empty _, ?_⟩
  · intro en hen
    rw [List.mem_singleton] at hen
    subst hen
    exact IsWalk.nil
  · intro en hen
    rw [List.mem_singleton] at hen
    subst hen
    exact Or.inr ⟨rfl, rfl, rfl⟩
  · intro en hen
    rw [List.mem_singleton] at hen
    subst hen
    exact (update_apply_self _ _ _).le
  · intro x hx hne
    by_cases hxs : x = s
    · subst hxs
      exact ⟨⟨0, 0, x, []⟩, List.mem_singleton_self _, rfl,
        (update_apply_self _ _ _).symm⟩
    · exact absurd (update_apply_ne _ _ hxs) hne
  · intro x hx
    exact absurd hx (Finset.not_mem_empty _)
  · exact (update_apply_self _ _ _).le
  · intro x hx
    exact absurd hx (Finset.not_mem_empty _)

/-- Full characterisation of the generic A* search. -/
theorem aStarFullH_good (g : Graph σ L α) (s endNode : σ) (h : σ → α)
    (hw : NonnegWeights g) (hc : ConsistentWith g h) (hnn : ∀ x, 0 ≤ h x) :
    LoopGood g s endNode h ∅ (aStarFullH g s endNode h) := by
  unfold aStarFullH
  apply aStarLoop_correct hw hc hnn
  · exact searchInv_init g s endNode h
  · simp [phi, fuelBound]

/-! ## Dijkstra as A* with the zero estimate

`dijkstra`'s queue entries `(dist, node, path)` correspond to the entries
`(dist, dist, node, path)` of the generic loop with `h ≡ 0`; the
lexicographic pop orders agree under this correspondence, so the two loops
run in lockstep. -/

def dToA : DEntry σ L α → AEntry σ L α := fun en => ⟨en.dist, en.dist, en.node, en.path⟩

theorem dToA_node (x : DEntry σ L α) : (dToA x).node = x.node := rfl

theorem dToA_gScore (x : DEntry σ L α) : (dToA x).gScore = x.dist := rfl

theorem dToA_path (x : DEntry σ L α) : (dToA x).path = x.path := rfl

theorem dToA_key_lt (x y : DEntry σ L α) :
    aKey (dToA x) < aKey (dToA y) ↔ dKey x < dKey y := by
  simp only [aKey, dKey, dToA, Prod.Lex.lt_iff]
  tauto

theorem popMin_map_dToA (b : DEntry σ L α) (l : List (DEntry σ L α)) :
    popMin aKey (dToA b) (l.map dToA) =
      (dToA (popMin dKey b l).1, (popMin dKey b l).2.map dToA) := by
  induction l generalizing b with
  | nil => simp [popMin]
  | cons x xs ih =>
    simp only [List.map_cons, popMin]
    by_cases hlt : dKey x < dKey b
    · rw [if_pos ((dToA_key_lt x b).mpr hlt), if_pos hlt, ih x]
      simp
    · rw [if_neg (fun hh => hlt ((dToA_key_lt x b).mp hh)), if_neg hlt, ih b]
      simp

theorem relaxA_map_dToA (cur : σ) (curG : α) (path : List (σ × L)) :
    ∀ (es : List (Edge σ L α)) (q : List (DEntry σ L α)) (t : σ → Cost α),
      relaxA (fun _ => (0 : α)) cur curG path es (q.map dToA) t =
        ((relaxD cur curG path es q t).1.map dToA, (relaxD cur curG path es q t).2) := by
  intro es
  induction es with
  | nil => intro q t; rfl
  | cons e es ih =>
    intro q t
    by_cases hpush : ((curG + e.distance : α) : Cost α) < t e.dest
    · simp only [relaxA, relaxD, if_pos hpush]
      have hentry : (⟨curG + e.distance + 0, curG + e.distance, e.dest,
          path ++ [(cur, e.line)]⟩ : AEntry σ L α) =
          dToA ⟨curG + e.distance, e.dest, path ++ [(cur, e.line)]⟩ := by
        simp [dToA]
      rw [hentry, ← List.map_cons]
      exact ih _ _
    · simp only [relaxA, relaxD, if_neg hpush]
      exact ih q t

/-- The simulation: `dijkstra`'s loop is the generic loop at `h ≡ 0`. -/
theorem dijkstraLoop_eq_aStarLoop (g : Graph σ L α) (endNode : σ) :
    ∀ (fuel : ℕ) (q : List (DEntry σ L α)) (vis : Finset σ) (t : σ → Cost α) (n : ℕ),
      dijkstraLoop g endNode fuel q vis t n =
        aStarLoop g endNode (fun _ => (0 : α)) fuel (q.map dToA) vis t n := by
  intro fuel
  induction fuel with
  | zero => intro q vis t n; cases q <;> rfl
  | succ fuel ih =>
    intro q vis t n
    cases q with
    | nil => rfl
    | cons b bs =>
      simp only [dijkstraLoop, aStarLoop, List.map_cons, popMin_map_dToA]
      dsimp only [dToA]
      by_cases hend : (popMin dKey b bs).1.node = endNode
      · simp only [if_pos hend]
      · simp only [if_neg hend]
        by_cases hvis : (popMin dKey b bs).1.node ∈ vis
        · simp only [if_pos hvis]
          exact ih _ vis t (n + 1)
        · simp only [if_neg hvis]
          by_cases hkeys : (popMin dKey b bs).1.node ∈ g.keys
          · simp only [if_pos hkeys]
            have hrelax := relaxA_map_dToA (popMin dKey b bs).1.node
              (popMin dKey b bs).1.dist (popMin dKey b bs).1.path
              (g.adj (popMin dKey b bs).1.node) (popMin dKey b bs).2 t
            rw [hrelax]
            exact ih _ _ _ (n + 1)
          · simp only [if_neg hkeys]
            exact ih _ _ t (n + 1)

/-- `dijkstra` is the generic search at the zero estimate. -/
theorem dijkstraFull_eq (g : Graph σ L α) (s endNode : σ) :
    dijkstraFull g s endNode = aStarFullH g s endNode (fun _ => (0 : α)) := by
  unfold dijkstraFull aStarFullH
  have := dijkstraLoop_eq_aStarLoop g endNode (fuelBound g) [⟨0, s, []⟩] ∅
    (update (fun _ => ⊤) s 0) 0
  simpa [dToA] using this

/-- Full characterisation of `dijkstra` (and its visited set). -/
theorem dijkstraFull_good (g : Graph σ L α) (s endNode : σ) (hw : NonnegWeights g) :
    LoopGood g s endNode (fun _ => (0 : α)) ∅ (dijkstraFull g s endNode) := by
  rw [dijkstraFull_eq]
  apply aStarFullH_good g s endNode (fun _ => 0) hw
  · intro u hu e he
    have := hw u hu e he
    simpa using this
  · intro x
    exact le_rfl

/-! ## Elementary run-shape lemmas (no invariant needed) -/

/-- Whenever either search reports the infinity sentinel it reports the empty
path (both the queue-exhaustion return and the fuel artifact do; a normal
return reports a finite coercion). -/
theorem aStarLoop_top_path :
    ∀ (fuel : ℕ) (q : List (AEntry σ L α)) (vis : Finset σ) (t : σ → Cost α) (n : ℕ),
      (aStarLoop g endNode h fuel q vis t n).1.1 = ⊤ →
      (aStarLoop g endNode h fuel q vis t n).1.2.1 = [] := by
  intro fuel
  induction fuel with
  | zero => intro q vis t n; cases q <;> intro _ <;> rfl
  | succ fuel ih =>
    intro q vis t n
    cases q with
    | nil => intro _; rfl
    | cons b bs =>
      simp only [aStarLoop]
      by_cases hend : (popMin aKey b bs).1.node = endNode
      · rw [if_pos hend]
        intro hh
        exact absurd hh (by simp)
      · rw [if_neg hend]
        by_cases hvis : (popMin aKey b bs).1.node ∈ vis
        · rw [if_pos hvis]; exact ih _ _ _ _
        · rw [if_neg hvis]
          by_cases hkeys : (popMin aKey b bs).1.node ∈ g.keys
          · rw [if_pos hkeys]; exact ih _ _ _ _
          · rw [if_neg hkeys]; exact ih _ _ _ _

/-- The dequeue counter never decreases. -/
theorem aStarLoop_count_ge :
    ∀ (fuel : ℕ) (q : List (AEntry σ L α)) (vis : Finset σ) (t : σ → Cost α) (n : ℕ),
      n ≤ (aStarLoop g endNode h fuel q vis t n).1.2.2 := by
  intro fuel
  induction fuel with
  | zero => intro q vis t n; cases q <;> simp [aStarLoop]
  | succ fuel ih =>
    intro q vis t n
    cases q with
    | nil => simp [aStarLoop]
    | cons b bs =>
      simp only [aStarLoop]
      by_cases hend : (popMin aKey b bs).1.node = endNode
      · rw [if_pos hend]; simp
      · rw [if_neg hend]
        by_cases hvis : (popMin aKey b bs).1.node ∈ vis
        · rw [if_pos hvis]; exact le_trans (by omega) (ih _ _ _ (n + 1))
        · rw [if_neg hvis]
          by_cases hkeys : (popMin aKey b bs).1.node ∈ g.keys
          · rw [if_pos hkeys]; exact le_trans (by omega) (ih _ _ _ (n + 1))
          · rw [if_neg hkeys]; exact le_trans (by omega) (ih _ _ _ (n + 1))

/-- With any fuel and a non-empty queue, at least one dequeue is counted
before any return. -/
theorem aStarLoop_count_succ (fuel : ℕ) (b : AEntry σ L α) (bs : List (AEntry σ L α))
    (vis : Finset σ) (t : σ → Cost α) (n : ℕ) (hfuel : 1 ≤ fuel) :
    n + 1 ≤ (aStarLoop g endNode h fuel (b :: bs) vis t n).1.2.2 := by
  rcases fuel with _ | f
  · omega
  · simp only [aStarLoop]
    by_cases hend : (popMin aKey b bs).1.node = endNode
    · rw [if_pos hend]
    · rw [if_neg hend]
      by_cases hvis : (popMin aKey b bs).1.node ∈ vis
      · rw [if_pos hvis]; exact aStarLoop_count_ge f _ _ _ (n + 1)
      · rw [if_neg hvis]
        by_cases hkeys : (popMin aKey b bs).1.node ∈ g.keys
        · rw [if_pos hkeys]; exact aStarLoop_count_ge f _ _ _ (n + 1)
        · rw [if_neg hkeys]; exact aStarLoop_count_ge f _ _ _ (n + 1)

/-- When start equals end, the very first dequeue returns cost `0` with the
single-pair path. -/
theorem aStarLoop_start_self (s : σ) (vis : Finset σ) (t : σ → Cost α) (n fuel : ℕ)
    (hfuel : 1 ≤ fuel) :
    aStarLoop g s h fuel [⟨0, 0, s, []⟩] vis t n =
      ((((0 : α) : Cost α), [(s, none)], n + 1), vis) := by
  rcases fuel with _ | f
  · omega
  · simp [aStarLoop, popMin]

/-- A start station with no outgoing edges and distinct from the end makes
the search terminate immediately unreachable (one dequeue, empty path). -/
theorem aStarFullH_no_start {s : σ} (hs : s ∉ g.keys) (hne : s ≠ endNode) :
    aStarFullH g s endNode h = ((⊤, [], 1), {s}) := by
  unfold aStarFullH
  have h1 : fuelBound g = (fuelBound g - 1) + 1 := by unfold fuelBound; omega
  rw [h1]
  simp [aStarLoop, popMin, hne, hs, aStarLoop_nil]

end SearchProofs

/-! ## Top-level corollaries about `dijkstra` and `a_star` -/

section TopLevel

variable [LinearOrder σ] [LinearOrderedField α]

theorem fuelBound_pos (g : Graph σ L α) : 1 ≤ fuelBound g := by
  unfold fuelBound; omega

theorem dijkstra_as_generic (g : Graph σ L α) (s e : σ) :
    dijkstra g s e = (aStarFullH g s e (fun _ => (0 : α))).1 := by
  unfold dijkstra
  rw [dijkstraFull_eq]

theorem dijkstraVisited_as_generic (g : Graph σ L α) (s e : σ) :
    dijkstraVisited g s e = (aStarFullH g s e (fun _ => (0 : α))).2 := by
  unfold dijkstraVisited
  rw [dijkstraFull_eq]

theorem dijkstra_count_pos (g : Graph σ L α) (s e : σ) : 1 ≤ (dijkstra g s e).2.2 := by
  rw [dijkstra_as_generic]
  unfold aStarFullH
  exact aStarLoop_count_succ _ _ _ _ _ _ (fuelBound_pos g)

theorem a_star_count_pos (g : Graph σ L ℝ) (s e : σ) (md : σ → Option Coords) :
    1 ≤ (a_star g s e md).2.2 := by
  unfold a_star aStarFull aStarFullH
  exact aStarLoop_count_succ _ _ _ _ _ _ (fuelBound_pos g)

theorem dijkstra_start_self (g : Graph σ L α) (s : σ) :
    dijkstra g s s = (((0 : α) : Cost α), [(s, none)], 1) := by
  rw [dijkstra_as_generic]
  unfold aStarFullH
  rw [aStarLoop_start_self s ∅ _ 0 (fuelBound g) (fuelBound_pos g)]

theorem a_star_start_self (g : Graph σ L ℝ) (s : σ) (md : σ → Option Coords) :
    a_star g s s md = (((0 : ℝ) : Cost ℝ), [(s, none)], 1) := by
  unfold a_star aStarFull aStarFullH
  rw [aStarLoop_start_self s ∅ _ 0 (fuelBound g) (fuelBound_pos g)]

theorem dijkstra_no_start {g : Graph σ L α} {s e : σ} (hs : s ∉ g.keys) (hne : s ≠ e) :
    dijkstra g s e = (⊤, [], 1) := by
  rw [dijkstra_as_generic, aStarFullH_no_start hs hne]

theorem a_star_no_start {g : Graph σ L ℝ} {s e : σ} (md : σ → Option Coords)
    (hs : s ∉ g.keys) (hne : s ≠ e) : a_star g s e md = (⊤, [], 1) := by
  unfold a_star aStarFull
  rw [aStarFullH_no_start hs hne]

theorem dijkstra_top_path (g : Graph σ L α) (s e : σ) :
    (dijkstra g s e).1 = ⊤ → (dijkstra g s e).2.1 = [] := by
  rw [dijkstra_as_generic]
  unfold aStarFullH
  exact aStarLoop_top_path _ _ _ _ _

theorem a_star_top_path (g : Graph σ L ℝ) (s e : σ) (md : σ → Option Coords) :
    (a_star g s e md).1 = ⊤ → (a_star g s e md).2.1 = [] := by
  unfold a_star aStarFull aStarFullH
  exact aStarLoop_top_path _ _ _ _ _

/-- The characterisation of `a_star`'s result with the code's heuristic,
under consistency of that heuristic on the graph. -/
theorem a_star_good (g : Graph σ L ℝ) (s e : σ) (md : σ → Option Coords)
    (hw : NonnegWeights g) (hc : ConsistentWith g (fun v => heuristic v e md)) :
    LoopGood g s e (fun v => heuristic v e md) ∅ (aStarFull g s e md) :=
  aStarFullH_good g s e _ hw hc (fun x => heuristic_nonneg x e md)

end TopLevel

/-! ## Claim theorems -/

/-- C1: For every graph with non-negative edge weights and every start and
end station, `dijkstra` returns the true minimum cost over all walks from
start to end, and the positive-infinity sentinel exactly when no such walk
exists. -/
theorem claim_C1 {σ L α : Type} [LinearOrder σ] [LinearOrderedField α]
    (g : Graph σ L α) (s e : σ) (hw : NonnegWeights g) :
    ((dijkstra g s e).1 = ⊤ ↔ ¬∃ γ : α, Walk g s e γ) ∧
    (∀ c : α, (dijkstra g s e).1 = ↑c →
      Walk g s e c ∧ ∀ γ : α, Walk g s e γ → c ≤ γ) := by
  have hgood := dijkstraFull_good g s e hw
  constructor
  · constructor
    · rintro htop ⟨γ, w⟩
      exact hgood.1 htop γ w
    · intro hno
      cases hcost : (dijkstra g s e).1 with
      | none => rfl
      | some c => exact absurd ⟨c, (hgood.2.1 c hcost).1⟩ hno
  · exact fun c hcost => hgood.2.1 c hcost

/-- A small executable graph over `ℚ` for the witnesses: a single edge
`0 → 1` of length `2` on line `0`. -/
def exGraph : Graph ℕ ℕ ℚ := ⟨{0}, fun v => if v = 0 then [⟨1, 2, 0⟩] else []⟩

theorem claim_C1_witness :
    NonnegWeights exGraph ∧
    (((dijkstra exGraph 0 1).1 = ⊤ ↔ ¬∃ γ : ℚ, Walk exGraph 0 1 γ) ∧
     (∀ c : ℚ, (dijkstra exGraph 0 1).1 = ↑c →
        Walk exGraph 0 1 c ∧ ∀ γ : ℚ, Walk exGraph 0 1 γ → c ≤ γ)) :=
  ⟨by decide, claim_C1 exGraph 0 1 (by decide)⟩

/-- C4: If the end station is never dequeued the searches report the
infinity sentinel with an empty path (and the dequeue count); in particular
a start station that is not a key of the graph and differs from the end
terminates immediately unreachable with exactly one dequeue. -/
theorem claim_C4 {σ L α : Type} [LinearOrder σ] [LinearOrderedField α] :
    (∀ (g : Graph σ L α) (s e : σ),
      (dijkstra g s e).1 = ⊤ → (dijkstra g s e).2.1 = []) ∧
    (∀ (g : Graph σ L ℝ) (s e : σ) (md : σ → Option Coords),
      (a_star g s e md).1 = ⊤ → (a_star g s e md).2.1 = []) ∧
    (∀ (g : Graph σ L α) (s e : σ), s ∉ g.keys → s ≠ e →
      dijkstra g s e = (⊤, [], 1)) ∧
    (∀ (g : Graph σ L ℝ) (s e : σ) (md : σ → Option Coords), s ∉ g.keys → s ≠ e →
      a_star g s e md = (⊤, [], 1)) :=
  ⟨fun g s e => dijkstra_top_path g s e,
   fun g s e md => a_star_top_path g s e md,
   fun g s e hs hne => dijkstra_no_start hs hne,
   fun g s e md hs hne => a_star_no_start md hs hne⟩

theorem claim_C4_witness :
    ((dijkstra exGraph 2 3).1 = ⊤ → (dijkstra exGraph 2 3).2.1 = []) ∧
    (2 ∉ exGraph.keys ∧ (2 : ℕ) ≠ 3 ∧ dijkstra exGraph 2 3 = (⊤, [], 1)) :=
  ⟨(@claim_C4 ℕ ℕ ℚ _ _).1 exGraph 2 3,
   by decide, by decide,
   (@claim_C4 ℕ ℕ ℚ _ _).2.2.1 exGraph 2 3 (by decide) (by decide)⟩

/-- C5: When start equals end, both searches return cost `0` with exactly
one node dequeued, and formatting the returned path yields the
single-element station list and the empty line list. -/
theorem claim_C5 {σ L α : Type} [LinearOrder σ] [LinearOrderedField α] [DecidableEq L] :
    (∀ (g : Graph σ L α) (s : σ),
      dijkstra g s s = (((0 : α) : Cost α), [(s, none)], 1)) ∧
    (∀ (g : Graph σ L ℝ) (s : σ) (md : σ → Option Coords),
      a_star g s s md = (((0 : ℝ) : Cost ℝ), [(s, none)], 1)) ∧
    (∀ (g : Graph σ L α) (s : σ), 1 ≤ (dijkstra g s s).2.2) ∧
    (∀ (g : Graph σ L α) (s : σ),
      format_path (dijkstra g s s).2.1 = some ([s], [])) := by
  refine ⟨fun g s => dijkstra_start_self g s,
    fun g s md => a_star_start_self g s md,
    fun g s => dijkstra_count_pos g s s, fun g s => ?_⟩
  rw [dijkstra_start_self g s]
  rfl

/-- C9: The divisor of the percentage-reduction computation in `main` is the
Dijkstra dequeue count, which is never zero, so the division-by-zero case of
`improvement` is unreachable in every execution of the reporting code. -/
theorem claim_C9 {σ L α : Type} [LinearOrder σ] [LinearOrderedField α]
    (g : Graph σ L α) (s e : σ) (aNodes : ℕ) :
    (((dijkstra g s e).2.2 : ℚ) ≠ 0) ∧
    improvement (dijkstra g s e).2.2 aNodes =
      (((dijkstra g s e).2.2 : ℚ) - (aNodes : ℚ)) / ((dijkstra g s e).2.2 : ℚ) * 100 := by
  constructor
  · have h1 : 1 ≤ (dijkstra g s e).2.2 := dijkstra_count_pos g s e
    exact_mod_cast Nat.one_le_iff_ne_zero.mp h1
  · rfl

/-- C10: Both searches always dequeue at least one node: the initial queue
holds the start entry, and the first dequeue is counted before any other
check; hence the Dijkstra node count used as a divisor is never zero. -/
theorem claim_C10 {σ L α : Type} [LinearOrder σ] [LinearOrderedField α] :
    (∀ (g : Graph σ L α) (s e : σ), 1 ≤ (dijkstra g s e).2.2) ∧
    (∀ (g : Graph σ L ℝ) (s e : σ) (md : σ → Option Coords),
      1 ≤ (a_star g s e md).2.2) :=
  ⟨fun g s e => dijkstra_count_pos g s e, fun g s e md => a_star_count_pos g s e md⟩

/-- C6: `heuristic` returns `0` whenever either station is absent from the
metadata table (it never fails), and otherwise returns the geodesic distance
between the two stations' coordinates. -/
theorem claim_C6 {σ : Type} (node target : σ) (md : σ → Option Coords) :
    ((md node = none ∨ md target = none) → heuristic node target md = 0) ∧
    (∀ c1 c2 : Coords, md node = some c1 → md target = some c2 →
      heuristic node target md = haversine c1.lat c1.lon c2.lat c2.lon) := by
  constructor
  · intro hcase
    cases h1 : md node with
    | none => simp [heuristic, h1]
    | some c1 =>
      cases h2 : md target with
      | none => simp [heuristic, h1, h2]
      | some c2 =>
        rcases hcase with hh | hh
        · rw [h1] at hh; exact absurd hh (by simp)
        · rw [h2] at hh; exact absurd hh (by simp)
  · intro c1 c2 h1 h2
    simp [heuristic, h1, h2]

/-- A one-station metadata table for the heuristic witnesses. -/
def exMd : ℕ → Option Coords := fun v => if v = 0 then some ⟨1, 2⟩ else none

theorem claim_C6_witness :
    (exMd 1 = none ∨ exMd 0 = none) ∧
    heuristic 1 0 exMd = 0 ∧
    (exMd 0 = some ⟨1, 2⟩ ∧ heuristic 0 0 exMd = haversine 1 2 1 2) := by
  refine ⟨Or.inl rfl, ?_, rfl, ?_⟩
  · exact (claim_C6 1 0 exMd).1 (Or.inl rfl)
  · exact (claim_C6 0 0 exMd).2 ⟨1, 2⟩ ⟨1, 2⟩ rfl rfl

/-- C7: `format_path` collapses consecutive identical line identifiers (the
concrete four-pair example from the spec), in general returns the ordered
station list with the deduplicated line sequence, and maps the empty path to
a result distinct from every length-one path's result. -/
theorem claim_C7 {σ L : Type} [DecidableEq L] :
    (format_path [("A", some "Red"), ("B", some "Red"), ("C", some "Blue"),
        ("D", (none : Option String))] =
      some (["A", "B", "C", "D"], [some "Red", some "Blue"])) ∧
    (∀ p : List (σ × Option L), p ≠ [] →
      format_path p =
        some (p.map Prod.fst, (p.dropLast.map Prod.snd).destutter (· ≠ ·))) ∧
    (∀ (a : σ) (l : Option L),
      format_path ([] : List (σ × Option L)) = none ∧
      format_path [(a, l)] = some ([a], []) ∧
      format_path ([] : List (σ × Option L)) ≠ format_path [(a, l)]) := by
  refine ⟨by decide, format_path_eq, ?_⟩
  intro a l
  exact ⟨rfl, rfl, by simp [format_path]⟩

theorem claim_C7_witness :
    ([((0 : ℕ), some (0 : ℕ)), (1, none)] : List (ℕ × Option ℕ)) ≠ [] ∧
    format_path ([((0 : ℕ), some (0 : ℕ)), (1, none)] : List (ℕ × Option ℕ)) =
      some ([0, 1], [some 0]) := by
  constructor
  · decide
  · have := (@claim_C7 ℕ ℕ _).2.1
      [((0 : ℕ), some (0 : ℕ)), (1, none)] (by decide)
    simpa using this

/-! ## Concrete heuristic values, for the counterexamples

On the equator the haversine distance is exactly proportional to the
longitude difference, which gives closed-form heuristic values. -/

theorem haversine_equator {d : ℝ} (h0 : 0 ≤ d) (h180 : d ≤ 180) :
    haversine 0 d 0 0 = 6371 * (d * (Real.pi / 180)) := by
  have hpi := Real.pi_pos
  have hpile := Real.pi_le_four
  simp only [haversine]
  rw [show ((0 : ℝ) * (Real.pi / 180) - 0 * (Real.pi / 180)) / 2 = 0 by ring]
  rw [Real.sin_zero]
  rw [show ((0 : ℝ) * (Real.pi / 180)) = 0 by ring]
  rw [Real.cos_zero]
  rw [show ((0 : ℝ) - d * (Real.pi / 180)) / 2 = -(d * (Real.pi / 180) / 2) by ring]
  rw [Real.sin_neg]
  rw [show (0 : ℝ) ^ 2 + 1 * 1 * (-Real.sin (d * (Real.pi / 180) / 2)) ^ 2 =
    Real.sin (d * (Real.pi / 180) / 2) ^ 2 by ring]
  rw [Real.sqrt_sq_eq_abs]
  have hθ0 : 0 ≤ d * (Real.pi / 180) / 2 := by positivity
  have hθhi : d * (Real.pi / 180) / 2 ≤ Real.pi / 2 := by nlinarith
  rw [abs_of_nonneg (Real.sin_nonneg_of_nonneg_of_le_pi hθ0 (by nlinarith))]
  rw [Real.arcsin_sin (by linarith) hθhi]
  ring

/-- Absent stations in the metadata force the zero estimate. -/
theorem heuristic_none_left {σ : Type} {node : σ} (target : σ) {md : σ → Option Coords}
    (hnode : md node = none) : heuristic node target md = 0 := by
  simp [heuristic, hnode]

/-- Counterexample graph for C2: edge `0 → 1` of weight `0`, `1 → 2` of
weight `1`, `0 → 2` of weight `10`.  Station `1` sits 100 degrees of
longitude from the end station `2` on the equator, so the geodesic estimate
at `1` (about 11119 km) wildly overestimates the remaining cost `1`:
`a_star` returns the direct cost `10` while the true minimum is `1`. -/
def C2G : Graph ℕ ℕ ℝ :=
  ⟨{0, 1}, fun v => if v = 0 then [⟨1, 0, 0⟩, ⟨2, 10, 0⟩]
    else if v = 1 then [⟨2, 1, 0⟩] else []⟩

def C2md : ℕ → Option Coords :=
  fun v => if v = 1 then some ⟨0, 100⟩ else if v = 2 then some ⟨0, 0⟩ else none

/-- Unfolded comparison of `a_star` queue keys, used to evaluate the
concrete runs. -/
theorem aKey_lt_iff {σ L α : Type} [LinearOrder σ] [LinearOrderedField α]
    (x y : AEntry σ L α) :
    aKey x < aKey y ↔ (x.fScore < y.fScore ∨ (x.fScore = y.fScore ∧
      (x.gScore < y.gScore ∨ (x.gScore = y.gScore ∧ x.node < y.node)))) := by
  simp [aKey, Prod.Lex.lt_iff]

theorem C2_fuel : fuelBound C2G = 0 + 1 + 1 + 1 + 1 := by decide

theorem C2_dijkstra_cost : (dijkstra C2G 0 2).1 = ((1 : ℝ) : Cost ℝ) := by
  rw [dijkstra_as_generic]
  unfold aStarFullH
  rw [C2_fuel]
  norm_num [aStarLoop, popMin, relaxA, update, C2G, aKey_lt_iff,
    WithTop.coe_lt_top, WithTop.coe_lt_coe, -WithTop.coe_ofNat, -WithTop.coe_one,
    -WithTop.coe_zero]

/-- `a_star` only consumes the metadata through the heuristic, so the
heuristic function may be replaced by any pointwise-equal one. -/
theorem a_star_abstract {σ L : Type} [LinearOrder σ] (g : Graph σ L ℝ) (s e : σ)
    (md : σ → Option Coords) (hf : σ → ℝ)
    (hfun : ∀ v, heuristic v e md = hf v) :
    a_star g s e md = (aStarFullH g s e hf).1 := by
  show (aStarFullH g s e (fun v => heuristic v e md)).1 = _
  exact congrArg (fun h0 => (aStarFullH g s e h0).1) (funext hfun)

/-- The heuristic value at station `1` of the C2 counterexample. -/
noncomputable def C2X : ℝ := 6371 * (100 * (Real.pi / 180))

theorem C2_heur : ∀ v : ℕ, heuristic v 2 C2md = if v = 1 then C2X else 0 := by
  intro v
  by_cases h1 : v = 1
  · subst h1
    rw [if_pos rfl]
    show haversine 0 100 0 0 = C2X
    simp only [C2X]
    exact haversine_equator (by norm_num) (by norm_num)
  · rw [if_neg h1]
    by_cases h2 : v = 2
    · subst h2
      exact heuristic_self 2 C2md
    · exact heuristic_none_left 2 (by simp [C2md, h1, h2])

theorem C2_astar_cost : (a_star C2G 0 2 C2md).1 = ((10 : ℝ) : Cost ℝ) := by
  have hpi := Real.pi_gt_three
  have hX1 : ¬(C2X < 10) := by simp only [C2X]; nlinarith
  have hX2 : C2X ≠ 10 := by simp only [C2X]; nlinarith
  rw [a_star_abstract C2G 0 2 C2md _ C2_heur]
  unfold aStarFullH
  rw [C2_fuel]
  norm_num [aStarLoop, popMin, relaxA, update, C2G, aKey_lt_iff,
    WithTop.coe_lt_top, WithTop.coe_lt_coe, hX1, hX2, -WithTop.coe_ofNat,
    -WithTop.coe_one, -WithTop.coe_zero]

theorem C2G_nonneg : NonnegWeights C2G := by
  intro u hu ed hed
  fin_cases hu <;> simp [C2G] at hed
  · rcases hed with rfl | rfl <;> norm_num
  · subst hed; norm_num

/-- C2 counterexample: on the graph `C2G` with metadata `C2md` (all weights
non-negative), `a_star` returns cost `10` while `dijkstra` returns the true
minimum `1` — the geodesic heuristic is not admissible for arbitrary
metadata, so the claim as stated fails. -/
theorem claim_C2_counterexample :
    NonnegWeights C2G ∧ (a_star C2G 0 2 C2md).1 ≠ (dijkstra C2G 0 2).1 := by
  refine ⟨C2G_nonneg, ?_⟩
  rw [C2_astar_cost, C2_dijkstra_cost]
  intro hh
  rw [WithTop.coe_eq_coe] at hh
  norm_num at hh

/-- C2 (amended): for every graph with non-negative edge weights and every
metadata table for which the code's heuristic is consistent along every edge
of the graph (which makes it admissible towards the end station), the cost
returned by `a_star` equals the cost returned by `dijkstra`. -/
theorem claim_C2_amended {σ L : Type} [LinearOrder σ] (g : Graph σ L ℝ) (s e : σ)
    (md : σ → Option Coords) (hw : NonnegWeights g)
    (hc : ConsistentWith g (fun v => heuristic v e md)) :
    (a_star g s e md).1 = (dijkstra g s e).1 := by
  have hA := a_star_good g s e md hw hc
  have hD := dijkstraFull_good g s e hw
  cases hcA : (a_star g s e md).1 with
  | none =>
    cases hcD : (dijkstra g s e).1 with
    | none => rfl
    | some c => exact absurd ((hD.2.1 c hcD).1) (hA.1 hcA c)
  | some c =>
    cases hcD : (dijkstra g s e).1 with
    | none => exact absurd ((hA.2.1 c hcA).1) (hD.1 hcD c)
    | some c' =>
      have h1 := hA.2.1 c hcA
      have h2 := hD.2.1 c' hcD
      have hcc : c = c' := le_antisymm (h1.2 c' h2.1) (h2.2 c h1.1)
      rw [hcc]

/-- An executable graph over `ℝ` and the empty metadata table, for the
witnesses of the corrected claims (the heuristic degrades to `0`, which is
trivially consistent and admissible). -/
def exGraphR : Graph ℕ ℕ ℝ := ⟨{0}, fun v => if v = 0 then [⟨1, 2, 0⟩] else []⟩

def noMd : ℕ → Option Coords := fun _ => none

theorem heuristic_noMd (v t : ℕ) : heuristic v t noMd = 0 := rfl

theorem exGraphR_nonneg : NonnegWeights exGraphR := by
  intro u hu ed hed
  fin_cases hu
  simp [exGraphR] at hed
  subst hed
  norm_num

theorem exGraphR_consistent : ConsistentWith exGraphR (fun v => heuristic v 1 noMd) := by
  intro u hu ed hed
  fin_cases hu
  simp [exGraphR] at hed
  subst hed
  simp [heuristic_noMd]

theorem claim_C2_amended_witness :
    NonnegWeights exGraphR ∧
    ConsistentWith exGraphR (fun v => heuristic v 1 noMd) ∧
    (a_star exGraphR 0 1 noMd).1 = (dijkstra exGraphR 0 1).1 :=
  ⟨exGraphR_nonneg, exGraphR_consistent,
    claim_C2_amended exGraphR 0 1 noMd exGraphR_nonneg exGraphR_consistent⟩

/-! ## The C3 counterexample

Stations `0 = S`, `1 = U1`, `2 = U2`, `3 = V`, `4 = E` with edges
`S→U1 (1)`, `S→U2 (2)`, `U1→V (2.5)`, `U2→V (2)`, `V→E (1)`.  Only `U1`
(at 0.02 degrees of longitude from `E`, heuristic value about 2.224) and `E`
carry metadata, so the heuristic is consistent and admissible; yet A*
expands `U2` before `U1`, pushes a second, better entry for `V`, and later
dequeues the stale one: 6 dequeues against Dijkstra's 5. -/

noncomputable def C3G : Graph ℕ ℕ ℝ :=
  ⟨{0, 1, 2, 3}, fun v =>
    if v = 0 then [⟨1, 1, 0⟩, ⟨2, 2, 0⟩]
    else if v = 1 then [⟨3, 2.5, 0⟩]
    else if v = 2 then [⟨3, 2, 0⟩]
    else if v = 3 then [⟨4, 1, 0⟩]
    else []⟩

noncomputable def C3md : ℕ → Option Coords :=
  fun v => if v = 1 then some ⟨0, 1 / 50⟩ else if v = 4 then some ⟨0, 0⟩ else none

/-- The heuristic value at station `1` of the C3 counterexample. -/
noncomputable def C3X : ℝ := 6371 * ((1 / 50) * (Real.pi / 180))

theorem C3X_gt : (2.2 : ℝ) < C3X := by
  have := Real.pi_gt_d6
  simp only [C3X]
  nlinarith

theorem C3X_lt : C3X < 2.3 := by
  have := Real.pi_lt_d2
  simp only [C3X]
  nlinarith

theorem C3_heur : ∀ v : ℕ, heuristic v 4 C3md = if v = 1 then C3X else 0 := by
  intro v
  by_cases h1 : v = 1
  · subst h1
    rw [if_pos rfl]
    show haversine 0 (1 / 50) 0 0 = C3X
    simp only [C3X]
    exact haversine_equator (by norm_num) (by norm_num)
  · rw [if_neg h1]
    by_cases h2 : v = 4
    · subst h2
      exact heuristic_self 4 C3md
    · exact heuristic_none_left 4 (by simp [C3md, h1, h2])

theorem C3_fuel : fuelBound C3G = 0 + 1 + 1 + 1 + 1 + 1 + 1 := by decide

theorem C3_dijkstra_count : (dijkstra C3G 0 4).2.2 = 5 := by
  rw [dijkstra_as_generic]
  unfold aStarFullH
  rw [C3_fuel]
  norm_num [aStarLoop, popMin, relaxA, update, C3G, aKey_lt_iff,
    WithTop.coe_lt_top, WithTop.coe_lt_coe, -WithTop.coe_ofNat,
    -WithTop.coe_one, -WithTop.coe_zero]

theorem C3_astar_count : (a_star C3G 0 4 C3md).2.2 = 6 := by
  have hb1 := C3X_gt
  have hb2 := C3X_lt
  have hf1 : ¬((1 : ℝ) + C3X < 2) := not_lt.mpr (by linarith)
  have hf2 : ¬((1 : ℝ) + C3X = 2) := by intro hh; linarith
  have hf3 : (1 : ℝ) + C3X < 4 := by linarith
  rw [a_star_abstract C3G 0 4 C3md _ C3_heur]
  unfold aStarFullH
  rw [C3_fuel]
  norm_num [aStarLoop, popMin, relaxA, update, C3G, aKey_lt_iff,
    WithTop.coe_lt_top, WithTop.coe_lt_coe, hf1, hf2, hf3, -WithTop.coe_ofNat,
    -WithTop.coe_one, -WithTop.coe_zero]

theorem C3G_nonneg : NonnegWeights C3G := by
  intro u hu ed hed
  fin_cases hu <;> simp [C3G] at hed
  · rcases hed with rfl | rfl <;> norm_num
  · subst hed; norm_num
  · subst hed; norm_num
  · subst hed; norm_num

theorem C3_consistent : ConsistentWith C3G (fun v => heuristic v 4 C3md) := by
  have hb1 := C3X_gt
  have hb2 := C3X_lt
  intro u hu ed hed
  simp only [C3_heur]
  fin_cases hu <;> simp [C3G] at hed
  · rcases hed with rfl | rfl <;> norm_num <;> linarith
  · subst hed; norm_num; linarith
  · subst hed; norm_num
  · subst hed; norm_num

theorem C3_admissible : AdmissibleTo C3G (fun v => heuristic v 4 C3md) 4 := by
  have hb2 := C3X_lt
  intro x γ w
  simp only [C3_heur]
  by_cases hx : x = 1
  · subst hx
    rw [if_pos rfl]
    cases w with
    | cons e hu he w2 =>
      simp [C3G] at he
      subst he
      cases w2 with
      | cons e2 hu2 he2 w3 =>
        simp [C3G] at he2
        subst he2
        cases w3 with
        | nil => norm_num; linarith
        | cons e3 hu3 he3 w4 => simp [C3G] at hu3
  · rw [if_neg hx]
    exact (w.nonneg C3G_nonneg)

/-- C3 counterexample: on the graph `C3G` with metadata `C3md` the heuristic
is admissible and consistent, yet `a_star` dequeues 6 entries while
`dijkstra` dequeues 5 — the claimed count inequality fails because A* can
push and later dequeue stale duplicate entries that Dijkstra's expansion
order avoids. -/
theorem claim_C3_counterexample :
    NonnegWeights C3G ∧
    ConsistentWith C3G (fun v => heuristic v 4 C3md) ∧
    AdmissibleTo C3G (fun v => heuristic v 4 C3md) 4 ∧
    (dijkstra C3G 0 4).2.2 < (a_star C3G 0 4 C3md).2.2 := by
  refine ⟨C3G_nonneg, C3_consistent, C3_admissible, ?_⟩
  rw [C3_dijkstra_count, C3_astar_count]
  norm_num

/-- C3 (amended): with an admissible and consistent heuristic, every station
`a_star` expands lies within the goal contour (its best cost plus estimate
is at most every start-to-end walk cost), and `dijkstra` expands every
station strictly inside the contour of its returned cost; hence any station
`a_star` expands strictly inside the contour is also expanded by
`dijkstra`.  (The dequeue-count inequality itself fails, witness the
counterexample.) -/
theorem claim_C3_amended {σ L : Type} [LinearOrder σ] (g : Graph σ L ℝ) (s e : σ)
    (md : σ → Option Coords) (hw : NonnegWeights g)
    (hc : ConsistentWith g (fun v => heuristic v e md))
    (hadm : AdmissibleTo g (fun v => heuristic v e md) e) :
    (∀ x ∈ aStarVisited g s e md, ∃ γ : ℝ, Walk g s x γ ∧
        ∀ γE : ℝ, Walk g s e γE → γ + heuristic x e md ≤ γE) ∧
    (∀ c : ℝ, (dijkstra g s e).1 = ↑c → ∀ x, ∀ γx : ℝ, Walk g s x γx → γx < c →
        x ∈ dijkstraVisited g s e) ∧
    (∀ x ∈ aStarVisited g s e md, ∀ c : ℝ, (dijkstra g s e).1 = ↑c →
        (∃ γ : ℝ, Walk g s x γ ∧ γ + heuristic x e md < c) →
        x ∈ dijkstraVisited g s e) := by
  have hA := a_star_good g s e md hw hc
  have hD := dijkstraFull_good g s e hw
  have hDC : ∀ c : ℝ, (dijkstra g s e).1 = ↑c → ∀ x, ∀ γx : ℝ, Walk g s x γx →
      γx < c → x ∈ dijkstraVisited g s e := by
    intro c hcost x γx wx hlt
    exact hD.2.2.2 rfl c hcost x γx wx (by simpa using hlt)
  refine ⟨?_, hDC, ?_⟩
  · intro x hx
    rcases hA.2.2.1 (heuristic_self e md) hadm x hx with hemp | hgood
    · exact absurd hemp (Finset.not_mem_empty x)
    · exact hgood
  · rintro x hx c hcost ⟨γ, wγ, hlt⟩
    have hnn : 0 ≤ heuristic x e md := heuristic_nonneg x e md
    exact hDC c hcost x γ wγ (by linarith)

theorem exGraphR_admissible : AdmissibleTo exGraphR (fun v => heuristic v 1 noMd) 1 := by
  intro x γ w
  have := w.nonneg exGraphR_nonneg
  simpa [heuristic_noMd] using this

theorem claim_C3_amended_witness :
    NonnegWeights exGraphR ∧
    ConsistentWith exGraphR (fun v => heuristic v 1 noMd) ∧
    AdmissibleTo exGraphR (fun v => heuristic v 1 noMd) 1 ∧
    ((∀ x ∈ aStarVisited exGraphR 0 1 noMd, ∃ γ : ℝ, Walk exGraphR 0 x γ ∧
        ∀ γE : ℝ, Walk exGraphR 0 1 γE → γ + heuristic x 1 noMd ≤ γE) ∧
     (∀ c : ℝ, (dijkstra exGraphR 0 1).1 = ↑c → ∀ x, ∀ γx : ℝ,
        Walk exGraphR 0 x γx → γx < c → x ∈ dijkstraVisited exGraphR 0 1) ∧
     (∀ x ∈ aStarVisited exGraphR 0 1 noMd, ∀ c : ℝ, (dijkstra exGraphR 0 1).1 = ↑c →
        (∃ γ : ℝ, Walk exGraphR 0 x γ ∧ γ + heuristic x 1 noMd < c) →
        x ∈ dijkstraVisited exGraphR 0 1)) :=
  ⟨exGraphR_nonneg, exGraphR_consistent, exGraphR_admissible,
    claim_C3_amended exGraphR 0 1 noMd exGraphR_nonneg exGraphR_consistent
      exGraphR_admissible⟩

/-- C8: `haversine` is a total pure function of the stated formula with
Earth radius `6371`; it returns `0` on identical points and is symmetric
(exactly, hence within the stated `1e-9` tolerance). -/
theorem claim_C8 (lat1 lon1 lat2 lon2 : ℝ) :
    haversine lat1 lon1 lat1 lon1 = 0 ∧
    haversine lat1 lon1 lat2 lon2 = haversine lat2 lon2 lat1 lon1 ∧
    |haversine lat1 lon1 lat2 lon2 - haversine lat2 lon2 lat1 lon1| ≤ 1e-9 := by
  refine ⟨haversine_self _ _, haversine_symm _ _ _ _, ?_⟩
  rw [haversine_symm lat1 lon1 lat2 lon2]
  simp
  norm_num

end DMRC
